import Mathlib

/-!
Verification of the RenumberSequence tool (`renumber_seq.py`).

The script renumbers image sequences inside directories.  Per directory it
lists the entries, buckets regular files of the shape `name.number.ext`
(split on the dot gives exactly three parts with a numeric middle part) by
`(name, ext)`, renames every bucketed file to a temporary name obtained by
appending a timestamp suffix to its frame token (phase 1), then per bucket
sorts the collected tokens by integer value and renames the staged files to
`name.<zero-padded new number>.ext` (phase 2).  A dictionary
`renaming_dict` records renames; on any exception it is replayed backwards
by `restore_original_names`.

This file gives a shallow embedding of that code:

* filenames and paths are lists of characters (`Str`);
* the directory is a list of `Entry` (full path plus a regular-file flag);
* `os.rename` becomes `osRename`, a partial map update that fails when the
  source is missing or the destination is an existing entry that a POSIX
  rename could not replace (a file may silently replace an existing file;
  nothing replaces a directory here);
* exceptions become `Except`; a fault-injection parameter `failAt` makes
  the n-th rename call of a run raise, modelling the simulated failures of
  the design document;
* the environment queries `os.path.exists` / `os.path.isdir` / `os.listdir`
  are summarised by the `PathInput` argument;
* logger warnings and the places where control leaves `renumber_files` are
  reflected in the `Outcome` of a run, and every successful rename of the
  two phases is logged in an instrumentation `trace` together with whether
  its destination existed just before the rename.
-/

namespace RenumberSeq

/-- Filenames, paths and name fragments are lists of characters. -/
abbrev Str := List Char

/-- The dot separator the script splits filenames on. -/
def dotChar : Char := '.'

/-- The path separator used to build full paths. -/
def slashChar : Char := '/'

/-- One directory entry: its path and whether it is a regular file. -/
structure Entry where
  name : Str
  isFile : Bool
deriving DecidableEq, Repr

/-- One logged rename of the two phases: source, destination, and whether
the destination path existed on disk just before the rename ran. -/
structure REv where
  src : Str
  dst : Str
  dstExisted : Bool
deriving DecidableEq, Repr

/-- The per-sequence buckets `seqs_data_dict`: an insertion-ordered
association list from `(name, ext)` to the frame tokens seen so far. -/
abbrev Seqs := List ((Str × Str) × List Str)

/-- Python `'%s/%s' % (path, file)`. -/
def fullP (path f : Str) : Str := path ++ slashChar :: f

/-- Python `'%s.%s.%s' % (name, number, ext)`; composing with `fullP`
gives the `'%s/%s.%s.%s'` format strings of the script. -/
def mkName (name number ext : Str) : Str :=
  name ++ dotChar :: number ++ dotChar :: ext

/-- `TEMP_SUFIX = '_tmp_' + DATE` (line 23 of the script); the timestamp
`DATE` is a run-time value and is a parameter here. -/
def mkTempSuffix (date : Str) : Str := '_' :: 't' :: 'm' :: 'p' :: '_' :: date

/-- Python `str.split('.')`: cut at every dot, keeping empty fragments, so
the result always has one more part than the string has dots. -/
def splitOnDot : Str → List Str
  | [] => [[]]
  | c :: cs =>
    if c = dotChar then [] :: splitOnDot cs
    else
      match splitOnDot cs with
      | [] => [[c]]
      | p :: ps => (c :: p) :: ps

/-- Python `str.isnumeric` restricted to ASCII: nonempty and all digits. -/
def pyIsNumeric (s : Str) : Bool := !s.isEmpty && s.all Char.isDigit

/-- Numeric value of a digit string, as computed by Python `int`. -/
def strToNat (s : Str) : Nat := s.foldl (fun a c => a * 10 + (c.toNat - 48)) 0

/-- Fuel-driven core of the decimal rendering of a natural number,
producing most-significant digit first (fuel at least the number). -/
def natToStrAux : Nat → Nat → Str → Str
  | 0, _, acc => acc
  | fuel + 1, n, acc =>
    let d := Char.ofNat (48 + n % 10)
    if n < 10 then d :: acc else natToStrAux fuel (n / 10) (d :: acc)

/-- Python `str` on a natural number: decimal digits, no leading zeros. -/
def natToStr (n : Nat) : Str := natToStrAux (n + 1) n []

/-- Python `str.zfill`: left-pad with zeros up to the requested width;
strings at least that long are returned unchanged. -/
def pyZfill (s : Str) (width : Nat) : Str :=
  List.replicate (width - s.length) '0' ++ s

/-- The formatted new frame number `str(frame_number).zfill(length)` of
line 179 of the script. -/
def frameStr (frame length : Nat) : Str := pyZfill (natToStr frame) length

/-- Lookup of a path in the directory state. -/
def findEntry (fs : List Entry) (p : Str) : Option Entry :=
  fs.find? (fun e => decide (e.name = p))

/-- Python `os.path.isfile`. -/
def isFileAt (fs : List Entry) (p : Str) : Bool :=
  match findEntry fs p with
  | some e => e.isFile
  | none => false

/-- Whether a path exists at all in the directory state. -/
def existsAt (fs : List Entry) (p : Str) : Bool := (findEntry fs p).isSome

/-- Python `os.rename` on the modelled directory state.  It fails when the
source is absent, or when the destination exists and is not a regular file
that a regular file may silently replace (POSIX semantics; replacing a
directory is not modelled as succeeding). -/
def osRename (fs : List Entry) (src dst : Str) : Option (List Entry) :=
  match findEntry fs src with
  | none => none
  | some e =>
    match findEntry fs dst with
    | none => some ((fs.filter (fun x => decide (x.name ≠ src))).concat ⟨dst, e.isFile⟩)
    | some d =>
      if e.isFile && d.isFile then
        some ((fs.filter (fun x => decide (x.name ≠ src ∧ x.name ≠ dst))).concat ⟨dst, e.isFile⟩)
      else none

/-- Mutable state threaded through one invocation of `renumber_files`:
the directory contents, the `renaming_dict`, the number of `os.rename`
calls made so far (for fault injection), and the instrumentation trace of
successful phase renames. -/
structure PState where
  fs : List Entry
  dict : List (Str × Str)
  cnt : Nat
  trace : List REv
deriving DecidableEq, Repr

/-- One `os.rename` call with fault injection: the call whose index equals
`failAt` raises, as do the intrinsic failures of `osRename`.  Only `fs`
and the call counter change; bookkeeping of `renaming_dict` is done by the
callers, as in the script. -/
def rename1 (failAt : Option Nat) (st : PState) (src dst : Str) : Except PState PState :=
  if failAt = some st.cnt then .error { st with cnt := st.cnt + 1 }
  else
    match osRename st.fs src dst with
    | none => .error { st with cnt := st.cnt + 1 }
    | some fs' => .ok { st with fs := fs', cnt := st.cnt + 1 }

/-- Early-exit left fold: a Python `for` loop whose body may raise. -/
def forE {σ ε α : Type} (f : σ → α → Except ε σ) : σ → List α → Except ε σ
  | s, [] => .ok s
  | s, a :: as =>
    match f s a with
    | .error e => .error e
    | .ok s' => forE f s' as

/-- Python dict assignment `d[k] = v` on an insertion-ordered association
list: update in place if the key is present, else append. -/
def dictSet (d : List (Str × Str)) (k v : Str) : List (Str × Str) :=
  if d.any (fun p => decide (p.1 = k)) then
    d.map (fun p => if p.1 = k then (k, v) else p)
  else d.concat (k, v)

/-- Lines 159-162 of the script: start a new bucket with `[number]` if the
`(name, ext)` key is new, else append the token to the existing bucket. -/
def seqsAdd (s : Seqs) (k : Str × Str) (n : Str) : Seqs :=
  if s.any (fun b => decide (b.1 = k)) then
    s.map (fun b => if b.1 = k then (b.1, b.2.concat n) else b)
  else s.concat (k, [n])

/-- Stable insert of a token into a token list sorted by integer value:
the new token goes after all tokens of smaller or equal value. -/
def insSorted (x : Str) : List Str → List Str
  | [] => [x]
  | y :: ys => if strToNat y ≤ strToNat x then y :: insSorted x ys else x :: y :: ys

/-- Python `list.sort(key=int)` (line 174): stable sort by integer value. -/
def sortByInt : List Str → List Str
  | [] => []
  | x :: xs => insSorted x (sortByInt xs)

/-- The body of the phase-1 loop (lines 139-169): skip entries that are
not regular files or do not split into three parts with a numeric middle
part; bucket the token, rename the file to its temporary name, then record
the rename in `renaming_dict`. -/
def procFile (T path : Str) (failAt : Option Nat)
    (s : PState × Seqs) (file : Str) : Except (PState × Seqs) (PState × Seqs) :=
  let st := s.1
  let seqs := s.2
  let full_path := fullP path file
  if isFileAt st.fs full_path then
    match splitOnDot file with
    | [name, number, ext] =>
      if pyIsNumeric number then
        let seqs' := seqsAdd seqs (name, ext) number
        let tmp_path := fullP path (mkName name (number ++ T) ext)
        let existed := existsAt st.fs tmp_path
        match rename1 failAt st full_path tmp_path with
        | .error st' => .error (st', seqs')
        | .ok st' =>
          .ok ({ st' with
                   dict := dictSet st'.dict full_path tmp_path,
                   trace := st'.trace.concat ⟨full_path, tmp_path, existed⟩ }, seqs')
      else .ok (st, seqs)
    | _ => .ok (st, seqs)
  else .ok (st, seqs)

/-- The body of the inner phase-2 loop (lines 177-185): rename one staged
file to its final numbered name, record the rename under its staged path,
and advance the frame counter. -/
def procSeqStep (T path : Str) (length : Nat) (failAt : Option Nat) (name ext : Str)
    (s : PState × Nat) (number : Str) : Except (PState × Nat) (PState × Nat) :=
  let st := s.1
  let frame := s.2
  let full_path := fullP path (mkName name (number ++ T) ext)
  let new_path := fullP path (mkName name (frameStr frame length) ext)
  let existed := existsAt st.fs new_path
  match rename1 failAt st full_path new_path with
  | .error st' => .error (st', frame)
  | .ok st' =>
    .ok ({ st' with
             dict := dictSet st'.dict full_path new_path,
             trace := st'.trace.concat ⟨full_path, new_path, existed⟩ }, frame + 1)

/-- One bucket of the phase-2 loop (lines 172-185): sort the bucket's
tokens by integer value and renumber them starting at `start`. -/
def procBucket (T path : Str) (start length : Nat) (failAt : Option Nat)
    (st : PState) (b : (Str × Str) × List Str) : Except PState PState :=
  match forE (procSeqStep T path length failAt b.1.1 b.1.2) (st, start) (sortByInt b.2) with
  | .error es => .error es.1
  | .ok s => .ok s.1

/-- `restore_original_names` (lines 92-103): for every recorded pair, in
insertion order, rename the current name back to the original name.  Each
reverse rename may itself raise. -/
def restore_original_names (failAt : Option Nat) (st : PState) : Except PState PState :=
  forE (fun st' pr => rename1 failAt st' pr.2 pr.1) st st.dict

/-- The environment of one `renumber_files(path, ...)` call: the path is
missing, is not a directory, or is a directory with the given listing. -/
inductive PathInput where
  | missing
  | notDir
  | dir (entries : List Entry)
deriving DecidableEq, Repr

/-- How one `renumber_files` call ended: one of the three logged warnings
with an early return, normal completion, completion through a successful
rollback, or an exception escaping because the rollback itself raised. -/
inductive Outcome where
  | warnedMissing
  | warnedNotDir
  | warnedEmpty
  | ok
  | rolledBack
  | rollbackFailed
deriving DecidableEq, Repr

/-- The observable result of one `renumber_files` call. -/
structure RunResult where
  outcome : Outcome
  fs : List Entry
  dict : List (Str × Str)
  trace : List REv
  seqs : Seqs
deriving DecidableEq, Repr

/-- Shared tail of `renumber_files`: the `except` handler of lines
186-190, which logs and calls `restore_original_names`; an exception
raised by the rollback itself is not caught anywhere. -/
def handleFailure (failAt : Option Nat) (st : PState) (seqs : Seqs) : RunResult :=
  match restore_original_names failAt st with
  | .ok st' => ⟨.rolledBack, st'.fs, st'.dict, st'.trace, seqs⟩
  | .error st' => ⟨.rollbackFailed, st'.fs, st'.dict, st'.trace, seqs⟩

/-- `renumber_files(path, start, length)` (lines 106-190). -/
def renumber_files (T path : Str) (start length : Nat) (failAt : Option Nat)
    (inp : PathInput) : RunResult :=
  match inp with
  | .missing => ⟨.warnedMissing, [], [], [], []⟩
  | .notDir => ⟨.warnedNotDir, [], [], [], []⟩
  | .dir entries =>
    let files := entries.map Entry.name
    let fs0 := entries.map (fun e => Entry.mk (fullP path e.name) e.isFile)
    if files.isEmpty then ⟨.warnedEmpty, fs0, [], [], []⟩
    else
      match forE (procFile T path failAt) (⟨fs0, [], 0, []⟩, []) files with
      | .error es => handleFailure failAt es.1 es.2
      | .ok s =>
        match forE (procBucket T path start length failAt) s.1 s.2 with
        | .error st' => handleFailure failAt st' s.2
        | .ok st' => ⟨.ok, st'.fs, st'.dict, st'.trace, s.2⟩

/-- One directory job of a run of `main`: the path, the fault-injection
point for that call, and what the filesystem says about the path. -/
structure Job where
  path : Str
  failAt : Option Nat
  inp : PathInput

/-- The loop of `main` (lines 204-206): process the directories in order;
an exception escaping `renumber_files` aborts the remaining iterations. -/
def runMany (T : Str) (start length : Nat) : List Job → List RunResult
  | [] => []
  | j :: js =>
    let r := renumber_files T j.path start length j.failAt j.inp
    if r.outcome = .rollbackFailed then [r]
    else r :: runMany T start length js

/-- A parsed sequence filename: base name, frame token, extension. -/
structure Tri where
  nm : Str
  num : Str
  ex : Str
deriving DecidableEq, Repr

/-- The classification used by the phase-1 loop, as a partial parse: a
filename is processed exactly when splitting on the dot yields three parts
whose middle part is numeric. -/
def matchParts (f : Str) : Option Tri :=
  match splitOnDot f with
  | [name, number, ext] => if pyIsNumeric number then some ⟨name, number, ext⟩ else none
  | _ => none

/-- Sample timestamp for concrete runs. -/
def sampleDate : Str := "22-02-05_10-00-00".toList

/-- Sample temporary suffix `'_tmp_' + DATE` for concrete runs. -/
def sampleT : Str := mkTempSuffix sampleDate

/-- Sample directory path for concrete runs. -/
def sampleDir : Str := "shots".toList

section NumberFormat

lemma natToStrAux_acc (fuel : Nat) : ∀ n acc, n < fuel →
    natToStrAux fuel n acc = natToStrAux fuel n [] ++ acc := by
  induction fuel with
  | zero => intro n acc h; exact absurd h (Nat.not_lt_zero n)
  | succ f ih =>
    intro n acc h
    by_cases hn : n < 10
    · simp [natToStrAux, hn]
    · have h10 : 10 ≤ n := Nat.le_of_not_lt hn
      have hd : n / 10 < f := by
        have := Nat.div_lt_self (show 0 < n by omega) (show 1 < 10 by omega)
        omega
      simp only [natToStrAux, if_neg hn]
      rw [ih (n / 10) _ hd, ih (n / 10) [Char.ofNat (48 + n % 10)] hd]
      simp

lemma natToStrAux_fuel : ∀ f₁ f₂ n acc, n < f₁ → n < f₂ →
    natToStrAux f₁ n acc = natToStrAux f₂ n acc := by
  intro f₁
  induction f₁ with
  | zero => intro f₂ n acc h; exact absurd h (Nat.not_lt_zero n)
  | succ f ih =>
    intro f₂ n acc h1 h2
    match f₂, h2 with
    | f₂ + 1, h2 =>
      by_cases hn : n < 10
      · simp [natToStrAux, hn]
      · have h10 : 10 ≤ n := Nat.le_of_not_lt hn
        have hd : n / 10 < n := Nat.div_lt_self (by omega) (by omega)
        simp only [natToStrAux, if_neg hn]
        exact ih f₂ (n / 10) _ (by omega) (by omega)

lemma natToStr_lt (n : Nat) (h : n < 10) : natToStr n = [Char.ofNat (48 + n)] := by
  simp [natToStr, natToStrAux, h, Nat.mod_eq_of_lt h]

lemma natToStr_ge (n : Nat) (h : 10 ≤ n) :
    natToStr n = natToStr (n / 10) ++ [Char.ofNat (48 + n % 10)] := by
  have hd : n / 10 < n := Nat.div_lt_self (by omega) (by omega)
  unfold natToStr
  rw [show natToStrAux (n + 1) n [] =
        natToStrAux n (n / 10) [Char.ofNat (48 + n % 10)] by
      simp [natToStrAux, Nat.not_lt_of_le h]]
  rw [natToStrAux_fuel n (n / 10 + 1) (n / 10) _ (by omega) (by omega)]
  rw [natToStrAux_acc (n / 10 + 1) (n / 10) _ (by omega)]

lemma digitChar_isDigit (d : Nat) (h : d < 10) : (Char.ofNat (48 + d)).isDigit = true := by
  interval_cases d <;> decide

lemma digitChar_toNat (d : Nat) (h : d < 10) : (Char.ofNat (48 + d)).toNat - 48 = d := by
  interval_cases d <;> decide

lemma natToStr_digits (n : Nat) : ∀ c ∈ natToStr n, c.isDigit = true := by
  induction n using Nat.strong_induction_on with
  | _ n ih =>
    by_cases hn : n < 10
    · rw [natToStr_lt n hn]
      intro c hc
      rw [List.mem_singleton] at hc
      exact hc ▸ digitChar_isDigit n hn
    · rw [natToStr_ge n (Nat.le_of_not_lt hn)]
      intro c hc
      rcases List.mem_append.mp hc with h | h
      · exact ih (n / 10) (Nat.div_lt_self (by omega) (by omega)) c h
      · rw [List.mem_singleton] at h
        exact h ▸ digitChar_isDigit (n % 10) (Nat.mod_lt n (by omega))

lemma natToStr_ne_nil (n : Nat) : natToStr n ≠ [] := by
  by_cases hn : n < 10
  · rw [natToStr_lt n hn]; simp
  · rw [natToStr_ge n (Nat.le_of_not_lt hn)]; simp

lemma strToNat_concat (s : Str) (c : Char) :
    strToNat (s ++ [c]) = 10 * strToNat s + (c.toNat - 48) := by
  simp [strToNat, List.foldl_append, Nat.mul_comm]

lemma strToNat_natToStr (n : Nat) : strToNat (natToStr n) = n := by
  induction n using Nat.strong_induction_on with
  | _ n ih =>
    by_cases hn : n < 10
    · rw [natToStr_lt n hn]
      simp [strToNat, digitChar_toNat n hn]
    · have h10 : 10 ≤ n := Nat.le_of_not_lt hn
      rw [natToStr_ge n h10, strToNat_concat,
        ih (n / 10) (Nat.div_lt_self (by omega) (by omega)),
        digitChar_toNat (n % 10) (Nat.mod_lt n (by omega))]
      exact Nat.div_add_mod n 10

lemma pyZfill_length (s : Str) (w : Nat) : (pyZfill s w).length = max w s.length := by
  simp [pyZfill]
  omega

lemma strToNat_zero_prefix (k : Nat) (s : Str) :
    strToNat (List.replicate k '0' ++ s) = strToNat s := by
  induction k with
  | zero => simp
  | succ m ih => simpa [List.replicate_succ, strToNat] using ih

lemma strToNat_pyZfill (s : Str) (w : Nat) : strToNat (pyZfill s w) = strToNat s :=
  strToNat_zero_prefix _ s

lemma strToNat_frameStr (n L : Nat) : strToNat (frameStr n L) = n := by
  rw [frameStr, strToNat_pyZfill, strToNat_natToStr]

lemma frameStr_inj (L a b : Nat) (h : frameStr a L = frameStr b L) : a = b := by
  have := congrArg strToNat h
  rwa [strToNat_frameStr, strToNat_frameStr] at this

lemma frameStr_digits (n L : Nat) : ∀ c ∈ frameStr n L, c.isDigit = true := by
  intro c hc
  rcases List.mem_append.mp hc with h | h
  · rw [List.eq_of_mem_replicate h]; decide
  · exact natToStr_digits n c h

lemma frameStr_ne_nil (n L : Nat) : frameStr n L ≠ [] := by
  rw [frameStr, pyZfill]
  intro h
  exact natToStr_ne_nil n (List.append_eq_nil.mp h).2

lemma pyIsNumeric_frameStr (n L : Nat) : pyIsNumeric (frameStr n L) = true := by
  rw [pyIsNumeric, Bool.and_eq_true, List.all_eq_true]
  refine ⟨by simpa using frameStr_ne_nil n L, fun c hc => frameStr_digits n L c hc⟩

lemma digit_ne_dot (c : Char) (h : c.isDigit = true) : c ≠ dotChar := by
  intro he
  rw [he] at h
  exact absurd h (by decide)

lemma frameStr_dotFree (n L : Nat) : dotChar ∉ frameStr n L := by
  intro h
  exact digit_ne_dot dotChar (frameStr_digits n L dotChar h) rfl

end NumberFormat

/-- Claim C7: for every file renumbered, the new frame number is formatted
as a decimal string zero-padded to at least `length` digits, and a number
with more digits than `length` is never truncated: the padded string keeps
the full decimal value of the frame number and its length is the maximum
of `length` and the unpadded length; in particular the 1000th frame of a
sequence starting at 1 is rendered `1000` under `length = 2`, not `00`. -/
theorem claim7_padding_minimum_not_truncating :
    (∀ frame length : Nat,
      frameStr frame length =
        List.replicate (length - (natToStr frame).length) '0' ++ natToStr frame ∧
      (frameStr frame length).length = max length (natToStr frame).length ∧
      strToNat (frameStr frame length) = frame ∧
      ∀ c ∈ frameStr frame length, c.isDigit = true) ∧
    frameStr 1000 2 = ['1', '0', '0', '0'] := by
  refine ⟨fun frame length => ⟨rfl, pyZfill_length _ _, strToNat_frameStr _ _,
    frameStr_digits _ _⟩, by decide⟩

section PathLemmas

lemma fullP_inj {path a b : Str} (h : fullP path a = fullP path b) : a = b := by
  have h2 := List.append_cancel_left h
  simpa using h2

end PathLemmas

section EasyClaims

/-- Claim C1 (code bug): with directory listing `a.1.png`, `a.2.png` and
the fourth physical rename (the second rename of phase 2) failing, the
rollback does not restore the original names: phase 2 records renames
under the staged temporary path while the stale entry mapping the original
path to the now-gone temporary path stays in `renaming_dict`, so the first
reverse rename raises, the exception escapes, and the run ends with
`a.01.png` and `a.2_tmp_<date>.png` on disk instead of the original
names. -/
theorem claim1_rollback_incomplete_eval :
    (renumber_files sampleT sampleDir 1 2 (some 3)
      (.dir [⟨"a.1.png".toList, true⟩, ⟨"a.2.png".toList, true⟩])).outcome
        = .rollbackFailed ∧
    existsAt (renumber_files sampleT sampleDir 1 2 (some 3)
      (.dir [⟨"a.1.png".toList, true⟩, ⟨"a.2.png".toList, true⟩])).fs
        (fullP sampleDir "a.1.png".toList) = false ∧
    existsAt (renumber_files sampleT sampleDir 1 2 (some 3)
      (.dir [⟨"a.1.png".toList, true⟩, ⟨"a.2.png".toList, true⟩])).fs
        (fullP sampleDir "a.2.png".toList) = false ∧
    existsAt (renumber_files sampleT sampleDir 1 2 (some 3)
      (.dir [⟨"a.1.png".toList, true⟩, ⟨"a.2.png".toList, true⟩])).fs
        (fullP sampleDir "a.01.png".toList) = true := by
  exact ⟨by decide, by decide, by decide, by decide⟩

/-- Claim C3 (code bug): after a fully successful run on the single file
`a.5.png`, `renaming_dict` still holds the phase-1 entry mapping the
original path to the temporary path, although the temporary path was
renamed away by phase 2 and no longer exists on disk — the documented
invariant that every recorded value names an existing path is violated
after the first successful phase-2 rename. -/
theorem claim3_renamemap_invariant_violated_eval :
    (renumber_files sampleT sampleDir 1 2 none
      (.dir [⟨"a.5.png".toList, true⟩])).outcome = .ok ∧
    (renumber_files sampleT sampleDir 1 2 none
      (.dir [⟨"a.5.png".toList, true⟩])).dict =
      [(fullP sampleDir "a.5.png".toList,
        fullP sampleDir ("a.5_tmp_22-02-05_10-00-00.png".toList)),
       (fullP sampleDir ("a.5_tmp_22-02-05_10-00-00.png".toList),
        fullP sampleDir "a.01.png".toList)] ∧
    existsAt (renumber_files sampleT sampleDir 1 2 none
      (.dir [⟨"a.5.png".toList, true⟩])).fs
      (fullP sampleDir ("a.5_tmp_22-02-05_10-00-00.png".toList)) = false := by
  exact ⟨by decide, by decide, by decide⟩

/-- Claim C2 is false as stated: an error raised while rolling back is not
absorbed.  With listing `a.1.png`, `a.2.png` and the fourth rename
failing, the rollback itself raises, the exception escapes
`renumber_files`, and a second directory supplied after this one is never
processed. -/
theorem claim2_counterexample :
    (renumber_files sampleT sampleDir 1 2 (some 3)
      (.dir [⟨"b.1.png".toList, true⟩, ⟨"b.2.png".toList, true⟩])).outcome
        = .rollbackFailed ∧
    runMany sampleT 1 2
      [⟨sampleDir, some 3, .dir [⟨"b.1.png".toList, true⟩, ⟨"b.2.png".toList, true⟩]⟩,
       ⟨"other".toList, none, .dir [⟨"c.7.png".toList, true⟩]⟩] =
      [renumber_files sampleT sampleDir 1 2 (some 3)
        (.dir [⟨"b.1.png".toList, true⟩, ⟨"b.2.png".toList, true⟩])] := by
  exact ⟨by decide, by decide⟩

/-- Claim C2 amended: an error raised inside the two rename phases of a
directory is caught and triggers the rollback, but an error raised during
the rollback pass itself escapes to the caller and aborts the remaining
directories; when no directory run ends with an escaped rollback error,
every supplied directory is processed. -/
theorem claim2_amended_all_processed (T : Str) (start length : Nat) (jobs : List Job)
    (h : ∀ j ∈ jobs,
      (renumber_files T j.path start length j.failAt j.inp).outcome ≠ .rollbackFailed) :
    runMany T start length jobs =
      jobs.map (fun j => renumber_files T j.path start length j.failAt j.inp) := by
  induction jobs with
  | nil => rfl
  | cons j js ih =>
    have hj := h j (List.mem_cons_self j js)
    simp only [runMany, List.map_cons, if_neg hj]
    rw [ih (fun j' hj' => h j' (List.mem_cons_of_mem j hj'))]

/-- Witness for the amended claim C2 at a concrete two-directory run: one
directory rolls back successfully after an injected phase-1 failure, the
next is still processed. -/
theorem claim2_amended_all_processed_witness :
    (∀ j ∈ ([⟨sampleDir, some 0, .dir [⟨"b.1.png".toList, true⟩]⟩,
             ⟨"other".toList, none, .dir [⟨"c.7.png".toList, true⟩]⟩] : List Job),
      (renumber_files sampleT j.path 1 2 j.failAt j.inp).outcome ≠ .rollbackFailed) ∧
    runMany sampleT 1 2
      [⟨sampleDir, some 0, .dir [⟨"b.1.png".toList, true⟩]⟩,
       ⟨"other".toList, none, .dir [⟨"c.7.png".toList, true⟩]⟩] =
      ([⟨sampleDir, some 0, .dir [⟨"b.1.png".toList, true⟩]⟩,
        ⟨"other".toList, none, .dir [⟨"c.7.png".toList, true⟩]⟩] : List Job).map
        (fun j => renumber_files sampleT j.path 1 2 j.failAt j.inp) := by
  refine ⟨by decide, claim2_amended_all_processed sampleT 1 2 _ (by decide)⟩

/-- Claim C6 is false as stated for the "zero files after filtering" case:
the emptiness check of the script runs on the raw `os.listdir` result
before any filtering, so a directory whose only entry is a subdirectory
is not skipped with a warning — the main loop runs, performs zero renames,
and the call returns normally. -/
theorem claim6_counterexample :
    (renumber_files sampleT sampleDir 1 2 none
      (.dir [⟨"sub".toList, false⟩])).outcome = .ok ∧
    (renumber_files sampleT sampleDir 1 2 none
      (.dir [⟨"sub".toList, false⟩])).trace = [] := by
  exact ⟨by decide, by decide⟩

lemma procFile_not_matched (T path : Str) (failAt : Option Nat) (st : PState)
    (seqs : Seqs) (f : Str)
    (h : isFileAt st.fs (fullP path f) = true → matchParts f = none) :
    procFile T path failAt (st, seqs) f = .ok (st, seqs) := by
  by_cases hf : isFileAt st.fs (fullP path f) = true
  · have hm := h hf
    rcases hs : splitOnDot f with _ | ⟨a, _ | ⟨b, _ | ⟨c, _ | ⟨d, rest⟩⟩⟩⟩
    · simp [procFile, hf, hs]
    · simp [procFile, hf, hs]
    · simp [procFile, hf, hs]
    · rw [matchParts, hs] at hm
      have hnum : pyIsNumeric b = false := by
        by_cases hb : pyIsNumeric b = true
        · simp [hb] at hm
        · exact Bool.eq_false_iff.mpr hb
      simp [procFile, hf, hs, hnum]
    · simp [procFile, hf, hs]
  · simp only [Bool.not_eq_true] at hf
    simp [procFile, hf]

lemma forE_procFile_skip_all (T path : Str) (failAt : Option Nat) (st : PState)
    (seqs : Seqs) (files : List Str)
    (h : ∀ f ∈ files, isFileAt st.fs (fullP path f) = true → matchParts f = none) :
    forE (procFile T path failAt) (st, seqs) files = .ok (st, seqs) := by
  induction files with
  | nil => rfl
  | cons f fs ih =>
    rw [forE, procFile_not_matched T path failAt st seqs f (h f (List.mem_cons_self f fs))]
    exact ih (fun g hg => h g (List.mem_cons_of_mem f hg))

lemma isFileAt_initial (path : Str) (entries : List Entry) (f : Str)
    (h : isFileAt (entries.map (fun e => Entry.mk (fullP path e.name) e.isFile))
      (fullP path f) = true) :
    ∃ e ∈ entries, e.name = f ∧ e.isFile = true := by
  rw [isFileAt] at h
  rcases hf : findEntry (entries.map (fun e => Entry.mk (fullP path e.name) e.isFile))
      (fullP path f) with _ | x
  · rw [hf] at h; exact absurd h (by simp)
  · rw [hf] at h
    have hmem := List.mem_of_find?_eq_some hf
    have hname : x.name = fullP path f := by
      have := List.find?_some hf
      simpa using this
    rcases List.mem_map.mp hmem with ⟨e, he, hx⟩
    refine ⟨e, he, ?_, ?_⟩
    · apply @fullP_inj path
      rw [← hname, ← hx]
    · rw [← hx] at h; exact h

/-- Claim C6 amended: a missing path, a non-directory path, and a
directory whose raw listing is empty are each skipped with the matching
warning and no rename; a directory whose listing is nonempty but contains
no matching sequence file is not warned about — the run completes
normally, performs no rename, and leaves every entry untouched. -/
theorem claim6_amended_skip_behaviour (T path : Str) (start length : Nat)
    (failAt : Option Nat) :
    (renumber_files T path start length failAt .missing).outcome = .warnedMissing ∧
    (renumber_files T path start length failAt .missing).trace = [] ∧
    (renumber_files T path start length failAt .notDir).outcome = .warnedNotDir ∧
    (renumber_files T path start length failAt .notDir).trace = [] ∧
    (renumber_files T path start length failAt (.dir [])).outcome = .warnedEmpty ∧
    (renumber_files T path start length failAt (.dir [])).trace = [] ∧
    ∀ entries : List Entry, entries ≠ [] →
      (∀ e ∈ entries, e.isFile = true → matchParts e.name = none) →
      (renumber_files T path start length failAt (.dir entries)).outcome = .ok ∧
      (renumber_files T path start length failAt (.dir entries)).trace = [] ∧
      (renumber_files T path start length failAt (.dir entries)).fs =
        entries.map (fun e => Entry.mk (fullP path e.name) e.isFile) := by
  refine ⟨rfl, rfl, rfl, rfl, rfl, rfl, fun entries hne h => ?_⟩
  have hskip : ∀ f ∈ entries.map Entry.name,
      isFileAt (entries.map (fun e => Entry.mk (fullP path e.name) e.isFile))
        (fullP path f) = true → matchParts f = none := by
    intro f _ hfile
    rcases isFileAt_initial path entries f hfile with ⟨e, he, hname, hfile'⟩
    exact hname ▸ h e he hfile'
  have hfold := forE_procFile_skip_all T path failAt
    ⟨entries.map (fun e => Entry.mk (fullP path e.name) e.isFile), [], 0, []⟩ []
    (entries.map Entry.name) hskip
  have hempty : (entries.map Entry.name).isEmpty = false := by
    cases entries with
    | nil => exact absurd rfl hne
    | cons a l => rfl
  refine ⟨?_, ?_, ?_⟩ <;>
    simp only [renumber_files, hempty, Bool.false_eq_true, if_false, hfold, forE]

/-- Witness for the amended claim C6 at a directory containing only a
subdirectory entry. -/
theorem claim6_amended_skip_behaviour_witness :
    (([⟨"sub".toList, false⟩] : List Entry) ≠ [] ∧
      ∀ e ∈ ([⟨"sub".toList, false⟩] : List Entry),
        e.isFile = true → matchParts e.name = none) ∧
    (renumber_files sampleT sampleDir 1 2 none
      (.dir [⟨"sub".toList, false⟩])).outcome = .ok ∧
    (renumber_files sampleT sampleDir 1 2 none
      (.dir [⟨"sub".toList, false⟩])).trace = [] ∧
    (renumber_files sampleT sampleDir 1 2 none
      (.dir [⟨"sub".toList, false⟩])).fs =
      ([⟨"sub".toList, false⟩] : List Entry).map
        (fun e => Entry.mk (fullP sampleDir e.name) e.isFile) := by
  refine ⟨⟨by decide, by decide⟩, ?_⟩
  exact (claim6_amended_skip_behaviour sampleT sampleDir 1 2 none).2.2.2.2.2.2
    [⟨"sub".toList, false⟩] (by decide) (by decide)

end EasyClaims

section Sorting

lemma insSorted_perm (x : Str) (l : List Str) : (insSorted x l).Perm (x :: l) := by
  induction l with
  | nil => exact List.Perm.refl _
  | cons y ys ih =>
    by_cases h : strToNat y ≤ strToNat x
    · simp only [insSorted, if_pos h]
      exact (ih.cons y).trans (List.Perm.swap x y ys)
    · simp only [insSorted, if_neg h]
      exact List.Perm.refl _

lemma sortByInt_perm (l : List Str) : (sortByInt l).Perm l := by
  induction l with
  | nil => exact List.Perm.refl _
  | cons x xs ih =>
    exact (insSorted_perm x (sortByInt xs)).trans (ih.cons x)

lemma insSorted_sorted (x : Str) (l : List Str)
    (h : l.Pairwise (fun a b => strToNat a ≤ strToNat b)) :
    (insSorted x l).Pairwise (fun a b => strToNat a ≤ strToNat b) := by
  induction l with
  | nil => simp [insSorted]
  | cons y ys ih =>
    rw [List.pairwise_cons] at h
    by_cases hyx : strToNat y ≤ strToNat x
    · simp only [insSorted, if_pos hyx]
      rw [List.pairwise_cons]
      refine ⟨fun z hz => ?_, ih h.2⟩
      rcases List.mem_cons.mp ((insSorted_perm x ys).mem_iff.mp hz) with hz1 | hz1
      · exact hz1 ▸ hyx
      · exact h.1 z hz1
    · have hxy : strToNat x ≤ strToNat y := Nat.le_of_lt (Nat.lt_of_not_le hyx)
      simp only [insSorted, if_neg hyx]
      refine List.Pairwise.cons (fun z hz => ?_) (List.Pairwise.cons h.1 h.2)
      rcases List.mem_cons.mp hz with hz1 | hz1
      · exact hz1 ▸ hxy
      · exact Nat.le_trans hxy (h.1 z hz1)

lemma sortByInt_sorted (l : List Str) :
    (sortByInt l).Pairwise (fun a b => strToNat a ≤ strToNat b) := by
  induction l with
  | nil => simp [sortByInt]
  | cons x xs ih => exact insSorted_sorted x (sortByInt xs) ih

lemma sorted_strict_iff (s : List Str)
    (hs : s.Pairwise (fun a b => strToNat a ≤ strToNat b))
    (hnd : (s.map strToNat).Nodup)
    (i j : Nat) (hi : i < s.length) (hj : j < s.length) :
    strToNat (s.get ⟨i, hi⟩) < strToNat (s.get ⟨j, hj⟩) ↔ i < j := by
  have hmono := List.pairwise_iff_get.mp hs
  have hne : ∀ a b (ha : a < s.length) (hb : b < s.length), a ≠ b →
      strToNat (s.get ⟨a, ha⟩) ≠ strToNat (s.get ⟨b, hb⟩) := by
    intro a b ha hb hab heq
    have hinj := List.nodup_iff_injective_get.mp hnd
    have ha' : a < (s.map strToNat).length := by simpa using ha
    have hb' : b < (s.map strToNat).length := by simpa using hb
    have hg : (s.map strToNat).get ⟨a, ha'⟩ = (s.map strToNat).get ⟨b, hb'⟩ := by
      rw [List.get_eq_getElem, List.get_eq_getElem, List.getElem_map, List.getElem_map]
      simp only [List.get_eq_getElem] at heq
      exact heq
    have := hinj hg
    exact hab (by simpa using congrArg Fin.val this)
  constructor
  · intro hlt
    by_contra hij
    rcases Nat.lt_or_ge j i with hji | hji
    · exact absurd (Nat.lt_of_le_of_lt (hmono ⟨j, hj⟩ ⟨i, hi⟩ hji) hlt)
        (Nat.lt_irrefl _)
    · have : i = j := Nat.le_antisymm hji (Nat.le_of_not_lt hij)
      subst this
      exact Nat.lt_irrefl _ hlt
  · intro hij
    exact Nat.lt_of_le_of_ne (hmono ⟨i, hi⟩ ⟨j, hj⟩ hij)
      (hne i j hi hj (Nat.ne_of_lt hij))

/-- The source–destination pairs produced by the inner phase-2 loop for
one bucket, starting the frame counter at `frame` (pure image of the
rename sequence of lines 177-185). -/
def bucketRenamesAux (path T name ext : Str) (length : Nat) : Nat → List Str → List (Str × Str)
  | _, [] => []
  | frame, number :: rest =>
    (fullP path (mkName name (number ++ T) ext),
     fullP path (mkName name (frameStr frame length) ext))
      :: bucketRenamesAux path T name ext length (frame + 1) rest

/-- The renames `renumber_files` performs for one `(name, ext)` bucket:
sort the bucket's tokens by integer value and number them from `start`.
This depends only on the bucket's own data, not on the rest of the
directory. -/
def bucketRenames (path T : Str) (start length : Nat) (name ext : Str)
    (tokens : List Str) : List (Str × Str) :=
  bucketRenamesAux path T name ext length start (sortByInt tokens)

lemma bucketRenamesAux_length (path T name ext : Str) (length : Nat) :
    ∀ (l : List Str) (frame : Nat),
      (bucketRenamesAux path T name ext length frame l).length = l.length := by
  intro l
  induction l with
  | nil => intro frame; rfl
  | cons n rest ih => intro frame; simp [bucketRenamesAux, ih]

lemma bucketRenamesAux_get (path T name ext : Str) (length : Nat) :
    ∀ (l : List Str) (frame i : Nat) (hi : i < l.length)
      (hb : i < (bucketRenamesAux path T name ext length frame l).length),
      (bucketRenamesAux path T name ext length frame l).get ⟨i, hb⟩ =
        (fullP path (mkName name ((l.get ⟨i, hi⟩) ++ T) ext),
         fullP path (mkName name (frameStr (frame + i) length) ext)) := by
  intro l
  induction l with
  | nil => intro frame i hi; exact absurd hi (by simp)
  | cons n rest ih =>
    intro frame i hi hb
    cases i with
    | zero => simp [bucketRenamesAux]
    | succ k =>
      have hk : k < rest.length := by simpa using hi
      have hb' : k < (bucketRenamesAux path T name ext length (frame + 1) rest).length := by
        rw [bucketRenamesAux_length]; exact hk
      have := ih (frame + 1) k hk hb'
      simp only [bucketRenamesAux, List.get_cons_succ]
      rw [this]
      have : frame + 1 + k = frame + (k + 1) := by omega
      rw [this]

/-- Claim C4: for a bucket whose frame tokens have pairwise distinct
integer values, renumbering preserves relative order: the tokens are
arranged by numeric (not lexical) value, position in the sorted order is
strictly monotone in numeric value, and the i-th file in that order is
renamed to the frame number `start + i` — so new frame numbers increase
by 1 from `start` exactly in the order of the original numeric values
(token `9` receives a smaller new number than token `10`). -/
theorem claim4_order_preservation (path T name ext : Str) (start length : Nat)
    (tokens : List Str) (hd : (tokens.map strToNat).Nodup) :
    (sortByInt tokens).Perm tokens ∧
    (∀ i j (hi : i < (sortByInt tokens).length) (hj : j < (sortByInt tokens).length),
      (strToNat ((sortByInt tokens).get ⟨i, hi⟩) <
        strToNat ((sortByInt tokens).get ⟨j, hj⟩) ↔ i < j)) ∧
    (bucketRenames path T start length name ext tokens).length = tokens.length ∧
    (∀ i (hi : i < (sortByInt tokens).length)
      (hb : i < (bucketRenames path T start length name ext tokens).length),
      (bucketRenames path T start length name ext tokens).get ⟨i, hb⟩ =
        (fullP path (mkName name (((sortByInt tokens).get ⟨i, hi⟩) ++ T) ext),
         fullP path (mkName name (frameStr (start + i) length) ext))) := by
  have hperm := sortByInt_perm tokens
  have hnd' : ((sortByInt tokens).map strToNat).Nodup :=
    ((hperm.map strToNat).nodup_iff).mpr hd
  refine ⟨hperm, fun i j hi hj =>
      sorted_strict_iff (sortByInt tokens) (sortByInt_sorted tokens) hnd' i j hi hj,
    ?_, fun i hi hb => bucketRenamesAux_get path T name ext length (sortByInt tokens)
      start i hi hb⟩
  rw [bucketRenames, bucketRenamesAux_length]
  exact hperm.length_eq

/-- Witness for claim C4 on the spec's example bucket with tokens 9, 10,
2: the sorted order is 2, 9, 10 and the assigned frame names follow it. -/
theorem claim4_order_preservation_witness :
    ((["9".toList, "10".toList, "2".toList] : List Str).map strToNat).Nodup ∧
    ((sortByInt ["9".toList, "10".toList, "2".toList]).Perm
        ["9".toList, "10".toList, "2".toList] ∧
      (∀ i j (hi : i < (sortByInt ["9".toList, "10".toList, "2".toList]).length)
        (hj : j < (sortByInt ["9".toList, "10".toList, "2".toList]).length),
        (strToNat ((sortByInt ["9".toList, "10".toList, "2".toList]).get ⟨i, hi⟩) <
          strToNat ((sortByInt ["9".toList, "10".toList, "2".toList]).get ⟨j, hj⟩) ↔ i < j)) ∧
      (bucketRenames sampleDir sampleT 1 2 "a".toList "png".toList
        ["9".toList, "10".toList, "2".toList]).length =
          (["9".toList, "10".toList, "2".toList] : List Str).length ∧
      (∀ i (hi : i < (sortByInt ["9".toList, "10".toList, "2".toList]).length)
        (hb : i < (bucketRenames sampleDir sampleT 1 2 "a".toList "png".toList
          ["9".toList, "10".toList, "2".toList]).length),
        (bucketRenames sampleDir sampleT 1 2 "a".toList "png".toList
          ["9".toList, "10".toList, "2".toList]).get ⟨i, hb⟩ =
          (fullP sampleDir (mkName "a".toList
            (((sortByInt ["9".toList, "10".toList, "2".toList]).get ⟨i, hi⟩) ++ sampleT)
            "png".toList),
           fullP sampleDir (mkName "a".toList (frameStr (1 + i) 2) "png".toList)))) := by
  exact ⟨by decide, claim4_order_preservation sampleDir sampleT "a".toList "png".toList
    1 2 ["9".toList, "10".toList, "2".toList] (by decide)⟩

end Sorting

section RenameElim

lemma rename1_ok_elim {failAt : Option Nat} {st st2 : PState} {src dst : Str}
    (h : rename1 failAt st src dst = .ok st2) :
    st2.trace = st.trace ∧ st2.dict = st.dict ∧ st2.cnt = st.cnt + 1 ∧
      osRename st.fs src dst = some st2.fs := by
  rw [rename1] at h
  by_cases hf : failAt = some st.cnt
  · rw [if_pos hf] at h
    exact absurd h (by simp)
  · rw [if_neg hf] at h
    rcases ho : osRename st.fs src dst with _ | fs'
    · rw [ho] at h
      exact absurd h (by simp)
    · rw [ho] at h
      have h2 : ({ st with fs := fs', cnt := st.cnt + 1 } : PState) = st2 := by
        simpa using h
      rw [← h2]
      exact ⟨rfl, rfl, rfl, rfl⟩

lemma rename1_error_elim {failAt : Option Nat} {st st2 : PState} {src dst : Str}
    (h : rename1 failAt st src dst = .error st2) :
    st2 = { st with cnt := st.cnt + 1 } := by
  rw [rename1] at h
  by_cases hf : failAt = some st.cnt
  · rw [if_pos hf] at h
    simpa using h.symm
  · rw [if_neg hf] at h
    rcases ho : osRename st.fs src dst with _ | fs'
    · rw [ho] at h
      simpa using h.symm
    · rw [ho] at h
      exact absurd h (by simp)

end RenameElim

section Phase2Trace

/-- Projection of a logged rename to its source–destination pair. -/
def proj (ev : REv) : Str × Str := (ev.src, ev.dst)

lemma procSeqStep_ok_elim {T path : Str} {length : Nat} {failAt : Option Nat}
    {name ext : Str} {st : PState} {frame : Nat} {number : Str} {st1 : PState}
    {frame1 : Nat}
    (h : procSeqStep T path length failAt name ext (st, frame) number = .ok (st1, frame1)) :
    st1.trace = st.trace.concat
      ⟨fullP path (mkName name (number ++ T) ext),
       fullP path (mkName name (frameStr frame length) ext),
       existsAt st.fs (fullP path (mkName name (frameStr frame length) ext))⟩ ∧
    frame1 = frame + 1 := by
  rw [procSeqStep] at h
  rcases hr : rename1 failAt st (fullP path (mkName name (number ++ T) ext))
      (fullP path (mkName name (frameStr frame length) ext)) with st' | st'
  · rw [hr] at h
    exact absurd h (by simp)
  · rw [hr] at h
    rcases rename1_ok_elim hr with ⟨htr, _, _, _⟩
    simp only [Except.ok.injEq, Prod.mk.injEq] at h
    refine ⟨?_, h.2.symm⟩
    rw [← h.1, htr]

lemma forE_procSeqStep_trace {T path : Str} {length : Nat} {failAt : Option Nat}
    {name ext : Str} :
    ∀ (l : List Str) (st : PState) (frame : Nat) (st' : PState) (frame' : Nat),
      forE (procSeqStep T path length failAt name ext) (st, frame) l = .ok (st', frame') →
      st'.trace.map proj = st.trace.map proj ++ bucketRenamesAux path T name ext length frame l := by
  intro l
  induction l with
  | nil =>
    intro st frame st' frame' h
    rw [forE] at h
    simp only [Except.ok.injEq, Prod.mk.injEq] at h
    rw [← h.1]
    simp [bucketRenamesAux]
  | cons n rest ih =>
    intro st frame st' frame' h
    rw [forE] at h
    rcases hs : procSeqStep T path length failAt name ext (st, frame) n with es | s1
    · rw [hs] at h
      exact absurd h (by simp)
    · rw [hs] at h
      rcases s1 with ⟨st1, frame1⟩
      rcases procSeqStep_ok_elim hs with ⟨htr, hfr⟩
      subst hfr
      have := ih st1 (frame + 1) st' frame' h
      rw [this, htr]
      simp [bucketRenamesAux, proj, List.concat_eq_append]

lemma procBucket_ok_trace {T path : Str} {start length : Nat} {failAt : Option Nat}
    {st st' : PState} {b : (Str × Str) × List Str}
    (h : procBucket T path start length failAt st b = .ok st') :
    st'.trace.map proj = st.trace.map proj ++
      bucketRenames path T start length b.1.1 b.1.2 b.2 := by
  rw [procBucket] at h
  rcases hs : forE (procSeqStep T path length failAt b.1.1 b.1.2) (st, start)
      (sortByInt b.2) with es | s1
  · rw [hs] at h
    exact absurd h (by simp)
  · rw [hs] at h
    rcases s1 with ⟨st1, frame1⟩
    simp only [Except.ok.injEq] at h
    rw [← h]
    exact forE_procSeqStep_trace (sortByInt b.2) st start st1 frame1 hs

/-- Claim C8: buckets do not interfere.  When the phase-2 loop completes,
the renames it performed are, in order, the concatenation over the buckets
of `bucketRenames`, a function only of the bucket's own key and tokens
(and the global `path`, suffix, `start` and `length`) — so each bucket's
numbering restarts at `start` and the final names assigned inside one
bucket are the same whatever other buckets are present; moreover the first
file of a nonempty bucket is assigned exactly the frame number `start`. -/
theorem claim8_bucket_independence (T path : Str) (start length : Nat)
    (failAt : Option Nat) (seqs : Seqs) (st st' : PState)
    (h : forE (procBucket T path start length failAt) st seqs = .ok st') :
    st'.trace.map proj = st.trace.map proj ++
      (seqs.map (fun b => bucketRenames path T start length b.1.1 b.1.2 b.2)).flatten ∧
    ∀ name ext : Str, ∀ u : Str, ∀ srt : List Str, ∀ tokens : List Str,
      sortByInt tokens = u :: srt →
      (bucketRenames path T start length name ext tokens).head? =
        some (fullP path (mkName name (u ++ T) ext),
              fullP path (mkName name (frameStr start length) ext)) := by
  constructor
  · induction seqs generalizing st with
    | nil =>
      rw [forE] at h
      simp only [Except.ok.injEq] at h
      rw [← h]
      simp
    | cons b rest ih =>
      rw [forE] at h
      rcases hb : procBucket T path start length failAt st b with es | st1
      · rw [hb] at h
        exact absurd h (by simp)
      · rw [hb] at h
        have := ih st1 h
        rw [this, procBucket_ok_trace hb]
        simp
  · intro name ext u srt tokens hsrt
    rw [bucketRenames, hsrt, bucketRenamesAux]
    rfl

/-- Witness for claim C8 on a two-bucket phase-2 run starting from the
staged state of the directory with files `a.3.png`, `a.1.png`, `b.2.jpg`:
the completed fold's trace decomposes bucket by bucket. -/
theorem claim8_bucket_independence_witness :
    (forE (procBucket sampleT sampleDir 1 2 none)
        ⟨[⟨fullP sampleDir (mkName "a".toList ("3".toList ++ sampleT) "png".toList), true⟩,
          ⟨fullP sampleDir (mkName "a".toList ("1".toList ++ sampleT) "png".toList), true⟩,
          ⟨fullP sampleDir (mkName "b".toList ("2".toList ++ sampleT) "jpg".toList), true⟩],
         [], 3, []⟩
        [(("a".toList, "png".toList), ["3".toList, "1".toList]),
         (("b".toList, "jpg".toList), ["2".toList])]).isOk = true ∧
    ∀ st', forE (procBucket sampleT sampleDir 1 2 none)
        ⟨[⟨fullP sampleDir (mkName "a".toList ("3".toList ++ sampleT) "png".toList), true⟩,
          ⟨fullP sampleDir (mkName "a".toList ("1".toList ++ sampleT) "png".toList), true⟩,
          ⟨fullP sampleDir (mkName "b".toList ("2".toList ++ sampleT) "jpg".toList), true⟩],
         [], 3, []⟩
        [(("a".toList, "png".toList), ["3".toList, "1".toList]),
         (("b".toList, "jpg".toList), ["2".toList])] = .ok st' →
      st'.trace.map proj =
        ([(("a".toList, "png".toList), ["3".toList, "1".toList]),
          (("b".toList, "jpg".toList), ["2".toList])].map
          (fun b => bucketRenames sampleDir sampleT 1 2 b.1.1 b.1.2 b.2)).flatten := by
  refine ⟨by decide, fun st' h => ?_⟩
  have := (claim8_bucket_independence sampleT sampleDir 1 2 none
    [(("a".toList, "png".toList), ["3".toList, "1".toList]),
     (("b".toList, "jpg".toList), ["2".toList])]
    ⟨[⟨fullP sampleDir (mkName "a".toList ("3".toList ++ sampleT) "png".toList), true⟩,
      ⟨fullP sampleDir (mkName "a".toList ("1".toList ++ sampleT) "png".toList), true⟩,
      ⟨fullP sampleDir (mkName "b".toList ("2".toList ++ sampleT) "jpg".toList), true⟩],
     [], 3, []⟩ st' h).1
  simpa using this

end Phase2Trace

section SplitJoin

/-- Inverse of `splitOnDot`: interleave the parts with dots. -/
def joinParts : List Str → Str
  | [] => []
  | [p] => p
  | p :: q :: ps => p ++ dotChar :: joinParts (q :: ps)

lemma splitOnDot_ne_nil (s : Str) : splitOnDot s ≠ [] := by
  cases s with
  | nil => simp [splitOnDot]
  | cons c cs =>
    rw [splitOnDot]
    by_cases h : c = dotChar
    · simp [h]
    · rw [if_neg h]
      rcases splitOnDot cs with _ | ⟨p, ps⟩ <;> simp

lemma joinParts_cons (p : Str) (l : List Str) (h : l ≠ []) :
    joinParts (p :: l) = p ++ dotChar :: joinParts l := by
  cases l with
  | nil => exact absurd rfl h
  | cons q ps => rfl

lemma splitOnDot_join (s : Str) : joinParts (splitOnDot s) = s := by
  induction s with
  | nil => rfl
  | cons c cs ih =>
    rw [splitOnDot]
    by_cases h : c = dotChar
    · rw [if_pos h, joinParts_cons [] (splitOnDot cs) (splitOnDot_ne_nil cs), ih, h]
      rfl
    · rw [if_neg h]
      rcases hs : splitOnDot cs with _ | ⟨p, ps⟩
      · exact absurd hs (splitOnDot_ne_nil cs)
      · rw [hs] at ih
        cases ps with
        | nil =>
          simp only [joinParts] at ih ⊢
          rw [ih]
        | cons q ps' =>
          rw [joinParts_cons p (q :: ps') (by simp)] at ih
          rw [joinParts_cons (c :: p) (q :: ps') (by simp)]
          rw [List.cons_append, ih]

lemma dotFree_of_mem_splitOnDot (s : Str) : ∀ p ∈ splitOnDot s, dotChar ∉ p := by
  induction s with
  | nil =>
    intro p hp
    rw [splitOnDot, List.mem_singleton] at hp
    simp [hp]
  | cons c cs ih =>
    intro p hp
    rw [splitOnDot] at hp
    by_cases h : c = dotChar
    · rw [if_pos h, List.mem_cons] at hp
      rcases hp with hp | hp
      · simp [hp]
      · exact ih p hp
    · rw [if_neg h] at hp
      rcases hs : splitOnDot cs with _ | ⟨q, ps⟩
      · exact absurd hs (splitOnDot_ne_nil cs)
      · rw [hs, List.mem_cons] at hp
        rcases hp with hp | hp
        · subst hp
          intro hmem
          rcases List.mem_cons.mp hmem with hc | hc
          · exact h hc.symm
          · exact ih q (hs ▸ List.mem_cons_self q ps) hc
        · exact ih p (hs ▸ List.mem_cons_of_mem q hp)

lemma splitOnDot_append_dotFree (a : Str) (h : dotChar ∉ a) (r : Str) :
    splitOnDot (a ++ dotChar :: r) = a :: splitOnDot r := by
  induction a with
  | nil => simp [splitOnDot]
  | cons c a' ih =>
    have hc : c ≠ dotChar := fun hcc => h (hcc ▸ List.mem_cons_self c a')
    have ha' : dotChar ∉ a' := fun hma => h (List.mem_cons_of_mem c hma)
    rw [List.cons_append, splitOnDot, if_neg hc, ih ha']

lemma splitOnDot_dotFree (s : Str) (h : dotChar ∉ s) : splitOnDot s = [s] := by
  induction s with
  | nil => rfl
  | cons x xs ih =>
    have hx : x ≠ dotChar := fun hxx => h (hxx ▸ List.mem_cons_self x xs)
    have hxs : dotChar ∉ xs := fun hm => h (List.mem_cons_of_mem x hm)
    rw [splitOnDot, if_neg hx, ih hxs]

lemma mkName_assoc (a b c : Str) :
    mkName a b c = a ++ (dotChar :: (b ++ (dotChar :: c))) := by
  rw [mkName, List.append_assoc, List.cons_append]

lemma splitOnDot_mkName (a b c : Str) (ha : dotChar ∉ a) (hb : dotChar ∉ b)
    (hc : dotChar ∉ c) : splitOnDot (mkName a b c) = [a, b, c] := by
  rw [mkName_assoc, splitOnDot_append_dotFree a ha, splitOnDot_append_dotFree b hb,
    splitOnDot_dotFree c hc]

lemma mkName_inj {a b c a2 b2 c2 : Str} (ha : dotChar ∉ a) (hb : dotChar ∉ b)
    (hc : dotChar ∉ c) (ha2 : dotChar ∉ a2) (hb2 : dotChar ∉ b2) (hc2 : dotChar ∉ c2)
    (h : mkName a b c = mkName a2 b2 c2) : a = a2 ∧ b = b2 ∧ c = c2 := by
  have := congrArg splitOnDot h
  rw [splitOnDot_mkName a b c ha hb hc, splitOnDot_mkName a2 b2 c2 ha2 hb2 hc2] at this
  simpa using this

end SplitJoin

section Classification

/-- Whether the phase-1 loop processes this entry: a regular file whose
name splits into three parts with a numeric middle part. -/
def entryMatched (e : Entry) : Bool := e.isFile && (matchParts e.name).isSome

/-- The parsed triples of the processed entries, in listing order. -/
def matchedOf (entries : List Entry) : List Tri :=
  entries.filterMap (fun e => if e.isFile then matchParts e.name else none)

/-- The entries the phase-1 loop skips, in listing order. -/
def skippedOf (entries : List Entry) : List Entry :=
  entries.filter (fun e => !(entryMatched e))

/-- An entry as it appears in the modelled directory state: full path. -/
def fullE (path : Str) (e : Entry) : Entry := ⟨fullP path e.name, e.isFile⟩

/-- The original bare filename of a parsed triple. -/
def origName (t : Tri) : Str := mkName t.nm t.num t.ex

/-- The staged bare filename of a parsed triple. -/
def tmpName (T : Str) (t : Tri) : Str := mkName t.nm (t.num ++ T) t.ex

/-- The original full path of a parsed triple. -/
def origPath (path : Str) (t : Tri) : Str := fullP path (origName t)

/-- The staged full path of a parsed triple. -/
def tmpPath (path T : Str) (t : Tri) : Str := fullP path (tmpName T t)

/-- The staged directory entry of a parsed triple. -/
def tmpEntry (path T : Str) (t : Tri) : Entry := ⟨tmpPath path T t, true⟩

/-- Well-formedness of a parsed triple: dot-free parts, numeric token. -/
def TriGood (t : Tri) : Prop :=
  dotChar ∉ t.nm ∧ dotChar ∉ t.num ∧ dotChar ∉ t.ex ∧ pyIsNumeric t.num = true

lemma matchParts_some_elim {f : Str} {t : Tri} (h : matchParts f = some t) :
    splitOnDot f = [t.nm, t.num, t.ex] ∧ f = origName t ∧ TriGood t := by
  rw [matchParts] at h
  split at h
  · rename_i a b c hs
    split at h
    · rename_i hn
      have ht : ({ nm := a, num := b, ex := c } : Tri) = t := by simpa using h
      subst ht
      have hmem := dotFree_of_mem_splitOnDot f
      rw [hs] at hmem
      have ha := hmem a (by simp)
      have hb := hmem b (by simp)
      have hc := hmem c (by simp)
      refine ⟨hs, ?_, ha, hb, hc, hn⟩
      have hj := splitOnDot_join f
      rw [hs] at hj
      simp only [joinParts] at hj
      rw [← hj, origName, mkName_assoc]
    · exact absurd h (by simp)
  · exact absurd h (by simp)

lemma matchParts_mkName (a b c : Str) (ha : dotChar ∉ a) (hb : dotChar ∉ b)
    (hc : dotChar ∉ c) (hn : pyIsNumeric b = true) :
    matchParts (mkName a b c) = some ⟨a, b, c⟩ := by
  rw [matchParts, splitOnDot_mkName a b c ha hb hc]
  simp [hn]

lemma mem_matchedOf_elim {t : Tri} {l : List Entry} (h : t ∈ matchedOf l) :
    ∃ e ∈ l, e.isFile = true ∧ matchParts e.name = some t := by
  rw [matchedOf] at h
  rcases List.mem_filterMap.mp h with ⟨e, he, hfe⟩
  by_cases hf : e.isFile = true
  · rw [if_pos hf] at hfe
    exact ⟨e, he, hf, hfe⟩
  · rw [if_neg hf] at hfe
    exact absurd hfe (by simp)

lemma mem_matchedOf_good {t : Tri} {l : List Entry} (h : t ∈ matchedOf l) : TriGood t := by
  rcases mem_matchedOf_elim h with ⟨e, _, _, hm⟩
  exact (matchParts_some_elim hm).2.2

lemma matchedOf_append (l1 l2 : List Entry) :
    matchedOf (l1 ++ l2) = matchedOf l1 ++ matchedOf l2 := by
  rw [matchedOf, matchedOf, matchedOf, List.filterMap_append]

lemma skippedOf_append (l1 l2 : List Entry) :
    skippedOf (l1 ++ l2) = skippedOf l1 ++ skippedOf l2 := by
  rw [skippedOf, skippedOf, skippedOf, List.filter_append]

lemma matchedOf_singleton_matched {e : Entry} {t : Tri} (hf : e.isFile = true)
    (hm : matchParts e.name = some t) : matchedOf [e] = [t] := by
  simp [matchedOf, hf, hm]

lemma matchedOf_singleton_skipped {e : Entry} (h : entryMatched e = false) :
    matchedOf [e] = [] := by
  cases hf : e.isFile with
  | false => simp [matchedOf, hf]
  | true =>
    rw [entryMatched, hf] at h
    simp only [Bool.true_and] at h
    rcases hm : matchParts e.name with _ | t
    · simp [matchedOf, hf, hm]
    · rw [hm] at h
      exact absurd h (by simp)

lemma skippedOf_singleton_matched {e : Entry} (h : entryMatched e = true) :
    skippedOf [e] = [] := by
  simp [skippedOf, h]

lemma skippedOf_singleton_skipped {e : Entry} (h : entryMatched e = false) :
    skippedOf [e] = [e] := by
  simp [skippedOf, h]

/-- The processed entries' original names, as filenames of their triples. -/
lemma matchedOf_map_origName (l : List Entry) :
    (matchedOf l).map origName = (l.filter entryMatched).map Entry.name := by
  induction l with
  | nil => rfl
  | cons e l' ih =>
    by_cases hf : e.isFile = true
    · rcases hm : matchParts e.name with _ | t
      · have hem : entryMatched e = false := by simp [entryMatched, hf, hm]
        simp only [matchedOf, List.filterMap_cons, if_pos hf, hm, List.filter_cons, hem]
        exact ih
      · have hem : entryMatched e = true := by simp [entryMatched, hf, hm]
        simp only [matchedOf, List.filterMap_cons, if_pos hf, hm, List.filter_cons, hem]
        simp only [List.map_cons]
        rw [← (matchParts_some_elim hm).2.1]
        exact congrArg (e.name :: ·) ih
    · have hf' : e.isFile = false := Bool.eq_false_iff.mpr hf
      have hem : entryMatched e = false := by simp [entryMatched, hf']
      simp only [matchedOf, List.filterMap_cons, hf', List.filter_cons, hem]
      simpa using ih

end Classification

section FsLemmas

/-- The paths present in a directory state. -/
def namesOf (fs : List Entry) : List Str := fs.map Entry.name

lemma findEntry_eq_none_iff {fs : List Entry} {p : Str} :
    findEntry fs p = none ↔ p ∉ namesOf fs := by
  rw [findEntry, List.find?_eq_none]
  simp [namesOf]

lemma findEntry_mem_of_nodup {fs : List Entry} {e : Entry}
    (hn : (namesOf fs).Nodup) (he : e ∈ fs) : findEntry fs e.name = some e := by
  induction fs with
  | nil => cases he
  | cons x xs ih =>
    rw [namesOf, List.map_cons, List.nodup_cons] at hn
    rcases List.mem_cons.mp he with he1 | he1
    · subst he1
      rw [findEntry]
      exact List.find?_cons_of_pos _ (by simp)
    · have hne : x.name ≠ e.name :=
        fun hh => hn.1 (hh ▸ List.mem_map.mpr ⟨e, he1, rfl⟩)
      rw [findEntry, List.find?_cons_of_neg _ (by simp [hne])]
      exact ih hn.2 he1

lemma isFileAt_true_mem {fs : List Entry} {p : Str} (h : isFileAt fs p = true) :
    (⟨p, true⟩ : Entry) ∈ fs := by
  rw [isFileAt] at h
  rcases hf : findEntry fs p with _ | e
  · rw [hf] at h
    exact absurd h (by simp)
  · rw [hf] at h
    have hmem := List.mem_of_find?_eq_some hf
    have hname : e.name = p := by simpa using List.find?_some hf
    have he : e = ⟨p, true⟩ := by
      cases e
      simp_all
    rwa [he] at hmem

lemma isFileAt_of_mem_nodup {fs : List Entry} {e : Entry}
    (hn : (namesOf fs).Nodup) (he : e ∈ fs) : isFileAt fs e.name = e.isFile := by
  rw [isFileAt, findEntry_mem_of_nodup hn he]

lemma existsAt_true_iff {fs : List Entry} {p : Str} :
    existsAt fs p = true ↔ p ∈ namesOf fs := by
  constructor
  · intro h
    rcases Option.isSome_iff_exists.mp h with ⟨e, he⟩
    have hname : e.name = p := by simpa using List.find?_some he
    exact hname ▸ List.mem_map.mpr ⟨e, List.mem_of_find?_eq_some he, rfl⟩
  · intro h
    by_contra hc
    have hnone : findEntry fs p = none :=
      Option.not_isSome_iff_eq_none.mp (by simpa [existsAt] using hc)
    exact findEntry_eq_none_iff.mp hnone h

lemma existsAt_false_iff {fs : List Entry} {p : Str} :
    existsAt fs p = false ↔ p ∉ namesOf fs := by
  rw [← existsAt_true_iff, Bool.eq_false_iff]

lemma existsAt_perm {fs1 fs2 : List Entry} {p : Str} (h : fs1.Perm fs2) :
    existsAt fs1 p = existsAt fs2 p := by
  by_cases hm : p ∈ namesOf fs2
  · rw [existsAt_true_iff.mpr hm,
      existsAt_true_iff.mpr ((h.map Entry.name).mem_iff.mpr hm)]
  · rw [existsAt_false_iff.mpr hm,
      existsAt_false_iff.mpr (fun hh => hm ((h.map Entry.name).mem_iff.mp hh))]

lemma isFileAt_perm {fs1 fs2 : List Entry} {p : Str} (h : fs1.Perm fs2)
    (hn : (namesOf fs2).Nodup) : isFileAt fs1 p = isFileAt fs2 p := by
  have hn1 : (namesOf fs1).Nodup := ((h.map Entry.name).nodup_iff).mpr hn
  by_cases hm : (⟨p, true⟩ : Entry) ∈ fs2
  · have h1 : isFileAt fs2 p = true := by simpa using isFileAt_of_mem_nodup hn hm
    have h2 : isFileAt fs1 p = true := by
      simpa using isFileAt_of_mem_nodup hn1 (h.mem_iff.mpr hm)
    rw [h1, h2]
  · have h1 : isFileAt fs2 p = false :=
      Bool.eq_false_iff.mpr (fun hh => hm (isFileAt_true_mem hh))
    have h2 : isFileAt fs1 p = false :=
      Bool.eq_false_iff.mpr (fun hh => hm (h.mem_iff.mp (isFileAt_true_mem hh)))
    rw [h1, h2]

lemma osRename_fresh {fs : List Entry} {src dst : Str} (hn : (namesOf fs).Nodup)
    (hsrc : (⟨src, true⟩ : Entry) ∈ fs) (hdst : dst ∉ namesOf fs) :
    osRename fs src dst =
      some ((fs.filter (fun x => decide (x.name ≠ src))).concat ⟨dst, true⟩) := by
  have h1 : findEntry fs src = some ⟨src, true⟩ := by
    simpa using findEntry_mem_of_nodup hn hsrc
  have h2 : findEntry fs dst = none := findEntry_eq_none_iff.mpr hdst
  rw [osRename, h1, h2]

lemma osRename_none_src {fs : List Entry} {src dst : Str} (h : src ∉ namesOf fs) :
    osRename fs src dst = none := by
  rw [osRename, findEntry_eq_none_iff.mpr h]

lemma osRename_dst_dir {fs : List Entry} {src dst : Str} (hn : (namesOf fs).Nodup)
    (hsrc : (⟨src, true⟩ : Entry) ∈ fs) (hdst : (⟨dst, false⟩ : Entry) ∈ fs) :
    osRename fs src dst = none := by
  have h1 : findEntry fs src = some ⟨src, true⟩ := by
    simpa using findEntry_mem_of_nodup hn hsrc
  have h2 : findEntry fs dst = some ⟨dst, false⟩ := by
    simpa using findEntry_mem_of_nodup hn hdst
  rw [osRename, h1, h2]
  simp

lemma filter_ne_of_not_mem_names (l : List Entry) (src : Str) (h : src ∉ namesOf l) :
    l.filter (fun x => decide (x.name ≠ src)) = l := by
  apply List.filter_eq_self.mpr
  intro x hx
  simp only [decide_eq_true_eq]
  exact fun hh => h (hh ▸ List.mem_map.mpr ⟨x, hx, rfl⟩)

lemma names_append (A B : List Entry) : namesOf (A ++ B) = namesOf A ++ namesOf B := by
  rw [namesOf, namesOf, namesOf, List.map_append]

lemma filter_ne_middle (A B : List Entry) (e : Entry)
    (hn : (namesOf (A ++ e :: B)).Nodup) :
    (A ++ e :: B).filter (fun x => decide (x.name ≠ e.name)) = A ++ B := by
  rw [names_append] at hn
  rw [List.nodup_append] at hn
  have hB : e.name ∉ namesOf B := by
    have := hn.2.1
    rw [namesOf, List.map_cons, List.nodup_cons] at this
    exact this.1
  have hA : e.name ∉ namesOf A := by
    intro hmem
    exact hn.2.2 hmem (by rw [namesOf, List.map_cons]; exact List.mem_cons_self _ _)
  have hEB : (e :: B).filter (fun x => decide (x.name ≠ e.name)) = B := by
    rw [List.filter_cons]
    have hcond : ¬ (decide (e.name ≠ e.name) = true) := by simp
    rw [if_neg hcond]
    exact filter_ne_of_not_mem_names B e.name hB
  rw [List.filter_append, hEB, filter_ne_of_not_mem_names A e.name hA]

end FsLemmas

section TmpNames

lemma tmpName_infix (T : Str) (t : Tri) : T <:+: tmpName T t := by
  refine ⟨t.nm ++ dotChar :: t.num, dotChar :: t.ex, ?_⟩
  rw [tmpName, mkName_assoc]
  simp [List.append_assoc]

lemma tmpName_ne_plain {T f : Str} {t : Tri} (hinf : ¬ T <:+: f) :
    tmpName T t ≠ f :=
  fun h => hinf (h ▸ tmpName_infix T t)

lemma tmpName_inj {T : Str} (hT : dotChar ∉ T) {t1 t2 : Tri}
    (h1 : TriGood t1) (h2 : TriGood t2) (h : tmpName T t1 = tmpName T t2) :
    t1 = t2 := by
  have hn1 : dotChar ∉ t1.num ++ T := by
    intro hm
    rcases List.mem_append.mp hm with hm | hm
    · exact h1.2.1 hm
    · exact hT hm
  have hn2 : dotChar ∉ t2.num ++ T := by
    intro hm
    rcases List.mem_append.mp hm with hm | hm
    · exact h2.2.1 hm
    · exact hT hm
  rcases mkName_inj h1.1 hn1 h1.2.2.1 h2.1 hn2 h2.2.2.1 h with ⟨ha, hb, hc⟩
  have hnum : t1.num = t2.num := by
    have := List.append_cancel_right hb
    exact this
  cases t1
  cases t2
  simp_all

lemma origName_inj {t1 t2 : Tri} (h1 : TriGood t1) (h2 : TriGood t2)
    (h : origName t1 = origName t2) : t1 = t2 := by
  rcases mkName_inj h1.1 h1.2.1 h1.2.2.1 h2.1 h2.2.1 h2.2.2.1 h with ⟨ha, hb, hc⟩
  cases t1
  cases t2
  simp_all

lemma mkTempSuffix_dotFree {date : Str} (h : dotChar ∉ date) :
    dotChar ∉ mkTempSuffix date := by
  intro hm
  rw [mkTempSuffix] at hm
  simp only [List.mem_cons] at hm
  rcases hm with h1 | h1 | h1 | h1 | h1 | h1
  · exact absurd h1 (by decide)
  · exact absurd h1 (by decide)
  · exact absurd h1 (by decide)
  · exact absurd h1 (by decide)
  · exact absurd h1 (by decide)
  · exact h h1

end TmpNames

section Phase1Inv

/-- Expected directory contents during phase 1, after the listing prefix
`done` has been visited and `rest` is still to come: skipped entries and
unvisited entries keep their original names, visited matching files sit at
their staged names. -/
def p1FS (path T : Str) (done rest : List Entry) : List Entry :=
  (skippedOf done).map (fullE path) ++ rest.map (fullE path) ++
    (matchedOf done).map (tmpEntry path T)

/-- Expected `renaming_dict` contents during phase 1. -/
def p1Dict (path T : Str) (done : List Entry) : List (Str × Str) :=
  (matchedOf done).map (fun t => (origPath path t, tmpPath path T t))

/-- Expected rename trace during phase 1: every destination was fresh. -/
def p1Trace (path T : Str) (done : List Entry) : List REv :=
  (matchedOf done).map (fun t => ⟨origPath path t, tmpPath path T t, false⟩)

/-- The bucket map built by folding `seqsAdd` over the parsed triples, as
the phase-1 loop does. -/
def seqsOfTri (l : List Tri) : Seqs :=
  l.foldl (fun s t => seqsAdd s (t.nm, t.ex) t.num) []

lemma seqsOfTri_concat (l : List Tri) (t : Tri) :
    seqsOfTri (l ++ [t]) = seqsAdd (seqsOfTri l) (t.nm, t.ex) t.num := by
  rw [seqsOfTri, seqsOfTri, List.foldl_append]
  rfl

lemma namesOf_map_fullE (path : Str) (A : List Entry) :
    namesOf (A.map (fullE path)) = (namesOf A).map (fullP path) := by
  simp [namesOf, fullE, List.map_map, Function.comp]

lemma namesOf_map_tmpEntry (path T : Str) (l : List Tri) :
    namesOf (l.map (tmpEntry path T)) = (l.map (tmpName T)).map (fullP path) := by
  simp [namesOf, tmpEntry, tmpPath, List.map_map, Function.comp]

lemma matchedOf_nodup {entries done rest : List Entry}
    (hnd : (namesOf entries).Nodup) (hsplit : entries = done ++ rest) :
    (matchedOf done).Nodup := by
  have h1 : ((matchedOf done).map origName).Nodup := by
    rw [matchedOf_map_origName]
    refine List.Nodup.sublist ?_ hnd
    rw [hsplit, names_append]
    exact (List.Sublist.map Entry.name (List.filter_sublist done)).trans
      (List.sublist_append_left _ _)
  exact h1.of_map

lemma p1Names_nodup (path date : Str) {entries : List Entry} (done rest : List Entry)
    (hnd : (namesOf entries).Nodup)
    (hdate : dotChar ∉ date)
    (hinf : ∀ e ∈ entries, ¬ (mkTempSuffix date) <:+: e.name)
    (hsplit : entries = done ++ rest) :
    (namesOf (p1FS path (mkTempSuffix date) done rest)).Nodup := by
  have hbare : namesOf (p1FS path (mkTempSuffix date) done rest) =
      ((namesOf (skippedOf done) ++ namesOf rest) ++
        (matchedOf done).map (tmpName (mkTempSuffix date))).map (fullP path) := by
    rw [p1FS, names_append, names_append, namesOf_map_fullE, namesOf_map_fullE,
      namesOf_map_tmpEntry]
    simp [List.map_append]
  rw [hbare]
  apply List.Nodup.map (fun a b h => fullP_inj h)
  rw [List.nodup_append]
  refine ⟨?_, ?_, ?_⟩
  · refine List.Nodup.sublist ?_ hnd
    rw [hsplit, names_append]
    exact List.Sublist.append (List.Sublist.map Entry.name (List.filter_sublist done))
      (List.Sublist.refl _)
  · exact List.Nodup.map_on
      (fun x hx y hy hxy => tmpName_inj (mkTempSuffix_dotFree hdate)
        (mem_matchedOf_good hx) (mem_matchedOf_good hy) hxy)
      (matchedOf_nodup hnd hsplit)
  · intro x hx hx2
    rcases List.mem_map.mp hx2 with ⟨t, ht, hxt⟩
    have hxe : x ∈ namesOf entries := by
      rw [hsplit, names_append]
      rcases List.mem_append.mp hx with hx1 | hx1
      · exact List.mem_append.mpr
          (Or.inl ((List.Sublist.map Entry.name (List.filter_sublist done)).subset hx1))
      · exact List.mem_append.mpr (Or.inr hx1)
    rcases List.mem_map.mp hxe with ⟨e, he, hxename⟩
    exact tmpName_ne_plain (hinf e he) (hxt.trans hxename.symm)

end Phase1Inv

section Phase1Helpers

lemma rename1_error_inj {failAt : Option Nat} {st st2 : PState} {src dst : Str}
    {fs2 : List Entry} (h : rename1 failAt st src dst = .error st2)
    (ho : osRename st.fs src dst = some fs2) : failAt = some st.cnt := by
  rw [rename1] at h
  by_cases hf : failAt = some st.cnt
  · exact hf
  · rw [if_neg hf, ho] at h
    exact absurd h (by simp)

lemma rename1_ok_ne {failAt : Option Nat} {st st2 : PState} {src dst : Str}
    (h : rename1 failAt st src dst = .ok st2) : failAt ≠ some st.cnt := by
  intro hf
  rw [rename1, if_pos hf] at h
  exact absurd h (by simp)

lemma dictSet_fresh (d : List (Str × Str)) (k v : Str) (h : ∀ p ∈ d, p.1 ≠ k) :
    dictSet d k v = d.concat (k, v) := by
  rw [dictSet]
  have hany : d.any (fun p => decide (p.1 = k)) = false := by
    rw [List.any_eq_false]
    intro p hp
    simp [h p hp]
  rw [hany]
  simp

lemma origName_mem_of_matched {done : List Entry} {t : Tri} (h : t ∈ matchedOf done) :
    origName t ∈ namesOf done := by
  have h1 : origName t ∈ (matchedOf done).map origName := List.mem_map_of_mem origName h
  rw [matchedOf_map_origName] at h1
  exact (List.Sublist.map Entry.name (List.filter_sublist done)).subset h1

lemma head_name_not_in_done {entries done rest2 : List Entry} {r : Entry}
    (hnd : (namesOf entries).Nodup) (hsplit : entries = done ++ r :: rest2) :
    r.name ∉ namesOf done := by
  rw [hsplit, names_append, List.nodup_append] at hnd
  intro hmem
  exact hnd.2.2 hmem (by rw [namesOf, List.map_cons]; exact List.mem_cons_self _ _)

lemma p1FS_cons_eq (path T : Str) (done : List Entry) (r : Entry) (rest2 : List Entry) :
    p1FS path T done (r :: rest2) =
      (skippedOf done).map (fullE path) ++ fullE path r ::
        (rest2.map (fullE path) ++ (matchedOf done).map (tmpEntry path T)) := by
  rw [p1FS]
  simp [List.append_assoc]

lemma p1FS_skip_step (path T : Str) (done : List Entry) (r : Entry) (rest2 : List Entry)
    (h : entryMatched r = false) :
    p1FS path T done (r :: rest2) = p1FS path T (done ++ [r]) rest2 := by
  rw [p1FS, p1FS, skippedOf_append, matchedOf_append, skippedOf_singleton_skipped h,
    matchedOf_singleton_skipped h]
  simp [List.append_assoc]

lemma p1FS_matched_step (path T : Str) (done : List Entry) (r : Entry)
    (rest2 : List Entry) (t : Tri) (hfile : r.isFile = true)
    (hm : matchParts r.name = some t) :
    p1FS path T (done ++ [r]) rest2 =
      ((skippedOf done).map (fullE path) ++
        (rest2.map (fullE path) ++ (matchedOf done).map (tmpEntry path T))) ++
        [tmpEntry path T t] := by
  rw [p1FS, skippedOf_append, matchedOf_append,
    skippedOf_singleton_matched (by simp [entryMatched, hfile, hm]),
    matchedOf_singleton_matched hfile hm]
  simp [List.append_assoc]

lemma procFile_matched_step (T path : Str) (failAt : Option Nat) (st : PState)
    (seqs : Seqs) (f : Str) (t : Tri)
    (hfile : isFileAt st.fs (fullP path f) = true)
    (hm : matchParts f = some t) :
    procFile T path failAt (st, seqs) f =
      match rename1 failAt st (fullP path f) (tmpPath path T t) with
      | .error st2 => .error (st2, seqsAdd seqs (t.nm, t.ex) t.num)
      | .ok st2 =>
        .ok ({ st2 with
                 dict := dictSet st2.dict (fullP path f) (tmpPath path T t),
                 trace := st2.trace.concat
                   ⟨fullP path f, tmpPath path T t,
                    existsAt st.fs (tmpPath path T t)⟩ },
             seqsAdd seqs (t.nm, t.ex) t.num) := by
  rcases matchParts_some_elim hm with ⟨hs, _, hgood⟩
  simp only [procFile, hfile, if_true, hs, hgood.2.2.2, tmpPath, tmpName]

lemma tmpPath_not_mem_p1FS {path date : Str} {entries done rest2 : List Entry}
    {r : Entry} {t : Tri}
    (hnd : (namesOf entries).Nodup)
    (hdate : dotChar ∉ date)
    (hinf : ∀ e ∈ entries, ¬ (mkTempSuffix date) <:+: e.name)
    (hsplit : entries = done ++ r :: rest2)
    (horig : r.name = origName t) (hgood : TriGood t) :
    tmpPath path (mkTempSuffix date) t ∉
      namesOf (p1FS path (mkTempSuffix date) done (r :: rest2)) := by
  intro hmem
  have hbare : namesOf (p1FS path (mkTempSuffix date) done (r :: rest2)) =
      ((namesOf (skippedOf done) ++ namesOf (r :: rest2)) ++
        (matchedOf done).map (tmpName (mkTempSuffix date))).map (fullP path) := by
    rw [p1FS, names_append, names_append, namesOf_map_fullE, namesOf_map_fullE,
      namesOf_map_tmpEntry]
    simp [List.map_append]
  rw [hbare] at hmem
  rcases List.mem_map.mp hmem with ⟨b, hb, hbeq⟩
  have hbt : b = tmpName (mkTempSuffix date) t := fullP_inj hbeq
  subst hbt
  rcases List.mem_append.mp hb with hb1 | hb1
  · have hbe : tmpName (mkTempSuffix date) t ∈ namesOf entries := by
      rw [hsplit, names_append]
      rcases List.mem_append.mp hb1 with hb2 | hb2
      · exact List.mem_append.mpr
          (Or.inl ((List.Sublist.map Entry.name (List.filter_sublist done)).subset hb2))
      · exact List.mem_append.mpr (Or.inr hb2)
    rcases List.mem_map.mp hbe with ⟨e, he, hname⟩
    exact tmpName_ne_plain (hinf e he) hname.symm
  · rcases List.mem_map.mp hb1 with ⟨t2, ht2, heq⟩
    have ht2t : t2 = t :=
      tmpName_inj (mkTempSuffix_dotFree hdate) (mem_matchedOf_good ht2) hgood heq
    subst ht2t
    have h1 : origName t2 ∈ namesOf done := origName_mem_of_matched ht2
    rw [← horig] at h1
    exact head_name_not_in_done hnd hsplit h1

end Phase1Helpers

section Phase1Sim

lemma filter_ne_middle2 (A B : List Entry) (e : Entry) (p : Str) (hp : e.name = p)
    (hn : (namesOf (A ++ e :: B)).Nodup) :
    (A ++ e :: B).filter (fun x => decide (x.name ≠ p)) = A ++ B := by
  subst hp
  exact filter_ne_middle A B e hn

lemma p1Dict_matched_step (path T : Str) (done : List Entry) (r : Entry) (t : Tri)
    (hfile : r.isFile = true) (hm : matchParts r.name = some t) :
    p1Dict path T (done ++ [r]) =
      (p1Dict path T done).concat (origPath path t, tmpPath path T t) := by
  rw [p1Dict, matchedOf_append, matchedOf_singleton_matched hfile hm, List.map_append,
    List.concat_eq_append]
  rfl

lemma p1Trace_matched_step (path T : Str) (done : List Entry) (r : Entry) (t : Tri)
    (hfile : r.isFile = true) (hm : matchParts r.name = some t) :
    p1Trace path T (done ++ [r]) =
      (p1Trace path T done).concat ⟨origPath path t, tmpPath path T t, false⟩ := by
  rw [p1Trace, matchedOf_append, matchedOf_singleton_matched hfile hm, List.map_append,
    List.concat_eq_append]
  rfl

/-- The phase-1 loop invariant: after visiting the listing prefix `done`,
the directory holds the staged picture `p1FS`, and `renaming_dict`, the
trace, the rename counter and the buckets match the processed prefix. -/
structure P1Inv (path T : Str) (entries done rest : List Entry)
    (st : PState) (seqs : Seqs) : Prop where
  hfs : st.fs.Perm (p1FS path T done rest)
  hdict : st.dict = p1Dict path T done
  htrace : st.trace = p1Trace path T done
  hcnt : st.cnt = (matchedOf done).length
  hseqs : seqs = seqsOfTri (matchedOf done)
  hsplit : entries = done ++ rest

theorem phase1_sim (path date : Str) (failAt : Option Nat) (entries : List Entry)
    (hnd : (namesOf entries).Nodup) (hdate : dotChar ∉ date)
    (hinf : ∀ e ∈ entries, ¬ (mkTempSuffix date) <:+: e.name) :
    ∀ (rest done : List Entry) (st : PState) (seqs : Seqs),
      P1Inv path (mkTempSuffix date) entries done rest st seqs →
      (∃ st2,
        forE (procFile (mkTempSuffix date) path failAt) (st, seqs) (rest.map Entry.name) =
          .ok (st2, seqsOfTri (matchedOf entries)) ∧
        P1Inv path (mkTempSuffix date) entries entries [] st2
          (seqsOfTri (matchedOf entries)) ∧
        (∀ k, failAt = some k →
          k < (matchedOf done).length ∨ (matchedOf entries).length ≤ k)) ∨
      (∃ done2 rest2 st2 seqs2,
        forE (procFile (mkTempSuffix date) path failAt) (st, seqs) (rest.map Entry.name) =
          .error (st2, seqs2) ∧
        st2.fs.Perm (p1FS path (mkTempSuffix date) done2 rest2) ∧
        st2.dict = p1Dict path (mkTempSuffix date) done2 ∧
        st2.trace = p1Trace path (mkTempSuffix date) done2 ∧
        entries = done2 ++ rest2 ∧
        failAt = some ((matchedOf done2).length) ∧
        st2.cnt = (matchedOf done2).length + 1) := by
  intro rest
  induction rest with
  | nil =>
    intro done st seqs inv
    have hde : done = entries := by simpa using inv.hsplit.symm
    subst hde
    left
    refine ⟨st, ?_, ?_, ?_⟩
    · rw [List.map_nil, forE, inv.hseqs]
    · exact ⟨inv.hfs, inv.hdict, inv.htrace, inv.hcnt, rfl, by simp⟩
    · intro k _
      exact Nat.lt_or_ge k _
  | cons r rest2 ih =>
    intro done st seqs inv
    have hnfs := p1Names_nodup path date done (r :: rest2) hnd hdate hinf inv.hsplit
    have hmemE : fullE path r ∈ p1FS path (mkTempSuffix date) done (r :: rest2) := by
      rw [p1FS]
      exact List.mem_append.mpr (Or.inl (List.mem_append.mpr (Or.inr
        (List.mem_map_of_mem (fullE path) (List.mem_cons_self r rest2)))))
    have hlookup : isFileAt st.fs (fullP path r.name) = r.isFile := by
      rw [isFileAt_perm inv.hfs hnfs]
      simpa [fullE] using isFileAt_of_mem_nodup hnfs hmemE
    by_cases hmatch : entryMatched r = true
    · -- the head entry is staged
      obtain ⟨hfile, ht⟩ : r.isFile = true ∧ ∃ t, matchParts r.name = some t := by
        rw [entryMatched, Bool.and_eq_true] at hmatch
        exact ⟨hmatch.1, Option.isSome_iff_exists.mp hmatch.2⟩
      obtain ⟨t, hmt⟩ := ht
      rcases matchParts_some_elim hmt with ⟨hsd, horig, hgood⟩
      have hsrcmem : (⟨fullP path r.name, true⟩ : Entry) ∈ st.fs := by
        apply inv.hfs.mem_iff.mpr
        have hfe : fullE path r = ⟨fullP path r.name, true⟩ := by rw [fullE, hfile]
        rw [← hfe]
        exact hmemE
      have hdstnot : tmpPath path (mkTempSuffix date) t ∉ namesOf st.fs := by
        intro hmem
        exact tmpPath_not_mem_p1FS hnd hdate hinf inv.hsplit horig hgood
          (((inv.hfs.map Entry.name).mem_iff).mp hmem)
      have hnst : (namesOf st.fs).Nodup := ((inv.hfs.map Entry.name).nodup_iff).mpr hnfs
      have hos := osRename_fresh hnst hsrcmem hdstnot
      have hstep := procFile_matched_step (mkTempSuffix date) path failAt st seqs r.name t
        (by rw [hlookup, hfile]) hmt
      rw [List.map_cons, forE, hstep]
      rcases hr : rename1 failAt st (fullP path r.name)
          (tmpPath path (mkTempSuffix date) t) with st2 | st2
      · -- the staging rename raised: only the injected fault can do that
        right
        have he2 := rename1_error_elim hr
        refine ⟨done, r :: rest2, st2, seqsAdd seqs (t.nm, t.ex) t.num,
          rfl, ?_, ?_, ?_, inv.hsplit, ?_, ?_⟩
        · rw [he2]
          exact inv.hfs
        · rw [he2]
          exact inv.hdict
        · rw [he2]
          exact inv.htrace
        · have hf := rename1_error_inj hr hos
          rw [inv.hcnt] at hf
          exact hf
        · rw [he2]
          simp only []
          rw [inv.hcnt]
      · -- the staging rename succeeded
        rcases rename1_ok_elim hr with ⟨htr2, hdict2, hcnt2, hos2⟩
        have hfs2 : st2.fs =
            (st.fs.filter (fun x => decide (x.name ≠ fullP path r.name))).concat
              ⟨tmpPath path (mkTempSuffix date) t, true⟩ :=
          Option.some.inj (hos2.symm.trans hos)
        have hfreshdict : ∀ p ∈ p1Dict path (mkTempSuffix date) done,
            p.1 ≠ fullP path r.name := by
          intro p hp
          rcases List.mem_map.mp hp with ⟨t2, ht2, hpe⟩
          rw [← hpe]
          intro heq
          have h1 : origName t2 = r.name := fullP_inj heq
          have h2 : origName t2 ∈ namesOf done := origName_mem_of_matched ht2
          rw [h1] at h2
          exact head_name_not_in_done hnd inv.hsplit h2
        have hinvNew : P1Inv path (mkTempSuffix date) entries (done ++ [r]) rest2
            ({ st2 with
                 dict := dictSet st2.dict (fullP path r.name)
                   (tmpPath path (mkTempSuffix date) t),
                 trace := st2.trace.concat
                   ⟨fullP path r.name, tmpPath path (mkTempSuffix date) t,
                    existsAt st.fs (tmpPath path (mkTempSuffix date) t)⟩ })
            (seqsAdd seqs (t.nm, t.ex) t.num) := by

          refine ⟨?_, ?_, ?_, ?_, ?_, ?_⟩
          · show st2.fs.Perm _
            rw [hfs2, p1FS_matched_step path (mkTempSuffix date) done r rest2 t hfile hmt,
              List.concat_eq_append]
            apply List.Perm.append_right
            have hfperm := inv.hfs.filter (fun x => decide (x.name ≠ fullP path r.name))
            have hfeq : (p1FS path (mkTempSuffix date) done (r :: rest2)).filter
                (fun x => decide (x.name ≠ fullP path r.name)) =
                (skippedOf done).map (fullE path) ++
                  (rest2.map (fullE path) ++
                    (matchedOf done).map (tmpEntry path (mkTempSuffix date))) := by
              rw [p1FS_cons_eq]
              apply filter_ne_middle2 _ _ (fullE path r) _ rfl
              rw [← p1FS_cons_eq]
              exact hnfs
            exact hfperm.trans (hfeq ▸ List.Perm.refl _)
          · show dictSet st2.dict _ _ = _
            rw [hdict2, inv.hdict, dictSet_fresh _ _ _ hfreshdict,
              p1Dict_matched_step path (mkTempSuffix date) done r t hfile hmt]
            have horp : origPath path t = fullP path r.name := by
              rw [origPath, horig]
            rw [horp]
          · show st2.trace.concat _ = _
            rw [htr2, inv.htrace,
              p1Trace_matched_step path (mkTempSuffix date) done r t hfile hmt]
            have horp : origPath path t = fullP path r.name := by
              rw [origPath, horig]
            rw [horp, existsAt_false_iff.mpr hdstnot]
          · show st2.cnt = _
            rw [hcnt2, inv.hcnt, matchedOf_append, matchedOf_singleton_matched hfile hmt]
            simp
          · show seqsAdd seqs _ _ = _
            rw [matchedOf_append, matchedOf_singleton_matched hfile hmt,
              seqsOfTri_concat, ← inv.hseqs]
          · rw [inv.hsplit]
            simp
        rcases ih (done ++ [r]) _ _ hinvNew with
          ⟨st3, hok, hinv3, hcond⟩ |
          ⟨d2, r2, st3, s3, herr, hperm3, hdict3, htrace3, hsplit3, hfail3, hcnt3⟩
        · left
          refine ⟨st3, hok, hinv3, ?_⟩
          intro k hk
          rcases hcond k hk with h1 | h1
          · have hne := rename1_ok_ne hr
            rw [inv.hcnt] at hne
            have hkne : k ≠ (matchedOf done).length := fun hh => hne (hh ▸ hk)
            rw [matchedOf_append, matchedOf_singleton_matched hfile hmt,
              List.length_append] at h1
            left
            simp only [List.length_singleton] at h1
            omega
          · right
            exact h1
        · right
          exact ⟨d2, r2, st3, s3, herr, hperm3, hdict3, htrace3, hsplit3, hfail3, hcnt3⟩
    · -- the head entry is skipped
      have hmatch' : entryMatched r = false := Bool.eq_false_iff.mpr hmatch
      have hstep : procFile (mkTempSuffix date) path failAt (st, seqs) r.name =
          .ok (st, seqs) := by
        apply procFile_not_matched
        intro hfile
        rw [hlookup] at hfile
        rw [entryMatched, hfile] at hmatch'
        simp only [Bool.true_and] at hmatch'
        exact Option.not_isSome_iff_eq_none.mp (by simp [hmatch'])
      rw [List.map_cons, forE, hstep]
      have hinvNew : P1Inv path (mkTempSuffix date) entries (done ++ [r]) rest2 st seqs := by
        refine ⟨?_, ?_, ?_, ?_, ?_, ?_⟩
        · rw [← p1FS_skip_step path (mkTempSuffix date) done r rest2 hmatch']
          exact inv.hfs
        · rw [p1Dict, matchedOf_append, matchedOf_singleton_skipped hmatch',
            List.append_nil, ← p1Dict]
          exact inv.hdict
        · rw [p1Trace, matchedOf_append, matchedOf_singleton_skipped hmatch',
            List.append_nil, ← p1Trace]
          exact inv.htrace
        · rw [matchedOf_append, matchedOf_singleton_skipped hmatch', List.append_nil]
          exact inv.hcnt
        · rw [matchedOf_append, matchedOf_singleton_skipped hmatch', List.append_nil]
          exact inv.hseqs
        · rw [inv.hsplit]
          simp
      rcases ih (done ++ [r]) st seqs hinvNew with
        ⟨st3, hok, hinv3, hcond⟩ |
        ⟨d2, r2, st3, s3, herr, hperm3, hdict3, htrace3, hsplit3, hfail3, hcnt3⟩
      · left
        refine ⟨st3, hok, hinv3, ?_⟩
        intro k hk
        rcases hcond k hk with h1 | h1
        · left
          rw [matchedOf_append, matchedOf_singleton_skipped hmatch',
            List.append_nil] at h1
          exact h1
        · right
          exact h1
      · right
        exact ⟨d2, r2, st3, s3, herr, hperm3, hdict3, htrace3, hsplit3, hfail3, hcnt3⟩

end Phase1Sim

section Rollback

/-- A restored file: back at its original path, a regular file. -/
def origEntryT (path : Str) (t : Tri) : Entry := ⟨origPath path t, true⟩

/-- Expected directory contents during the rollback pass, after the staged
files of `P` have been renamed back and those of `R` are still staged. -/
def rbFS (path T : Str) (done2 rest2 : List Entry) (P R : List Tri) : List Entry :=
  (skippedOf done2).map (fullE path) ++ rest2.map (fullE path) ++
    P.map (origEntryT path) ++ R.map (tmpEntry path T)

lemma namesOf_map_origEntryT (path : Str) (l : List Tri) :
    namesOf (l.map (origEntryT path)) = (l.map origName).map (fullP path) := by
  simp [namesOf, origEntryT, origPath, List.map_map, Function.comp]

lemma rbFS_names (path T : Str) (done2 rest2 : List Entry) (P R : List Tri) :
    namesOf (rbFS path T done2 rest2 P R) =
      (namesOf (skippedOf done2) ++ namesOf rest2 ++ P.map origName ++
        R.map (tmpName T)).map (fullP path) := by
  rw [rbFS, names_append, names_append, names_append, namesOf_map_fullE,
    namesOf_map_fullE, namesOf_map_origEntryT, namesOf_map_tmpEntry]
  simp [List.map_append]

lemma nodup_after_rename {fs : List Entry} {src dst : Str} {b : Bool}
    (hn : (namesOf fs).Nodup) (hdst : dst ∉ namesOf fs) :
    (namesOf ((fs.filter (fun x => decide (x.name ≠ src))).concat ⟨dst, b⟩)).Nodup := by
  rw [List.concat_eq_append, names_append, List.nodup_append]
  refine ⟨List.Nodup.sublist (List.Sublist.map Entry.name (List.filter_sublist fs)) hn,
    by simp [namesOf], ?_⟩
  intro x hx hx2
  have hxd : x = dst := by simpa [namesOf] using hx2
  subst hxd
  exact hdst ((List.Sublist.map Entry.name (List.filter_sublist fs)).subset hx)

lemma mem_name_unique {l : List Entry} {e1 e2 : Entry}
    (hn : (namesOf l).Nodup) (h1 : e1 ∈ l) (h2 : e2 ∈ l) (hname : e1.name = e2.name) :
    e1 = e2 :=
  List.inj_on_of_nodup_map hn h1 h2 hname

lemma mem_matchedOf_entry {done2 : List Entry} {t : Tri} (ht : t ∈ matchedOf done2) :
    ∃ e ∈ done2, entryMatched e = true ∧ e.name = origName t := by
  rcases mem_matchedOf_elim ht with ⟨e, he, hf, hm⟩
  exact ⟨e, he, by simp [entryMatched, hf, hm], (matchParts_some_elim hm).2.1⟩

lemma origPath_not_mem_rbFS {path date : Str} {entries done2 rest2 : List Entry}
    {P R2 : List Tri} {t : Tri}
    (hnd : (namesOf entries).Nodup)
    (hinf : ∀ e ∈ entries, ¬ (mkTempSuffix date) <:+: e.name)
    (hsplit : entries = done2 ++ rest2)
    (hmm : matchedOf done2 = P ++ t :: R2) :
    origPath path t ∉
      namesOf (rbFS path (mkTempSuffix date) done2 rest2 P (t :: R2)) := by
  have htm : t ∈ matchedOf done2 := by
    rw [hmm]
    exact List.mem_append.mpr (Or.inr (List.mem_cons_self t R2))
  have hndd : (namesOf done2).Nodup := by
    rw [hsplit, names_append, List.nodup_append] at hnd
    exact hnd.1
  intro hmem
  rw [rbFS_names] at hmem
  rcases List.mem_map.mp hmem with ⟨b, hb, hbeq⟩
  have hbt : b = origName t := fullP_inj hbeq
  subst hbt
  rcases List.mem_append.mp hb with hb1 | hb1
  · rcases List.mem_append.mp hb1 with hb2 | hb2
    · rcases List.mem_append.mp hb2 with hb3 | hb3
      · -- a skipped entry carries the original name of a matched file
        rcases List.mem_map.mp hb3 with ⟨e, he, hename⟩
        have heS := List.mem_filter.mp he
        rcases mem_matchedOf_entry htm with ⟨e2, he2, hm2, hname2⟩
        have hee : e = e2 :=
          mem_name_unique hndd (List.mem_of_mem_filter he) he2 (hename.trans hname2.symm)
        rw [hee, hm2] at heS
        exact absurd heS.2 (by simp)
      · -- the original name of a matched file of done2 appears in rest2
        have h1 : origName t ∈ namesOf done2 := origName_mem_of_matched htm
        rw [hsplit, names_append, List.nodup_append] at hnd
        exact hnd.2.2 h1 hb3
    · -- another already-restored triple has the same original name
      rcases List.mem_map.mp hb2 with ⟨t2, ht2, hteq⟩
      have ht2m : t2 ∈ matchedOf done2 := by
        rw [hmm]
        exact List.mem_append.mpr (Or.inl ht2)
      have htt : t2 = t :=
        origName_inj (mem_matchedOf_good ht2m) (mem_matchedOf_good htm) hteq
      subst htt
      have hmnd := matchedOf_nodup hnd hsplit
      rw [hmm, List.nodup_append] at hmnd
      exact hmnd.2.2 ht2 (List.mem_cons_self t2 R2)
  · -- a staged name cannot equal a plain original name
    rcases List.mem_map.mp hb1 with ⟨t2, ht2x, hteq⟩
    have h1 : origName t ∈ namesOf entries := by
      rw [hsplit, names_append]
      exact List.mem_append.mpr (Or.inl (origName_mem_of_matched htm))
    rcases List.mem_map.mp h1 with ⟨e, he, hename⟩
    exact tmpName_ne_plain (hinf e he) (hteq.trans hename.symm)

lemma restore_fold (path date : Str) (k : Nat) {entries : List Entry}
    (done2 rest2 : List Entry)
    (hnd : (namesOf entries).Nodup)
    (hinf : ∀ e ∈ entries, ¬ (mkTempSuffix date) <:+: e.name)
    (hsplit : entries = done2 ++ rest2) :
    ∀ (R P : List Tri) (st : PState),
      matchedOf done2 = P ++ R →
      st.fs.Perm (rbFS path (mkTempSuffix date) done2 rest2 P R) →
      (namesOf st.fs).Nodup →
      k < st.cnt →
      ∃ st2,
        forE (fun st' pr => rename1 (some k) st' pr.2 pr.1) st
            (R.map (fun t =>
              (origPath path t, tmpPath path (mkTempSuffix date) t))) =
          .ok st2 ∧
        st2.fs.Perm (rbFS path (mkTempSuffix date) done2 rest2 (P ++ R) []) := by
  intro R
  induction R with
  | nil =>
    intro P st hmm hperm hnodup hcnt
    refine ⟨st, rfl, ?_⟩
    simpa using hperm
  | cons t R2 ih =>
    intro P st hmm hperm hnodup hcnt
    have hsrcmem : (⟨tmpPath path (mkTempSuffix date) t, true⟩ : Entry) ∈ st.fs := by
      apply hperm.mem_iff.mpr
      rw [rbFS]
      exact List.mem_append.mpr (Or.inr
        (List.mem_map_of_mem (tmpEntry path (mkTempSuffix date))
          (List.mem_cons_self t R2)))
    have hdstnot : origPath path t ∉ namesOf st.fs := by
      intro hmem
      exact origPath_not_mem_rbFS hnd hinf hsplit hmm
        (((hperm.map Entry.name).mem_iff).mp hmem)
    have hos := osRename_fresh hnodup hsrcmem hdstnot
    have hne : ¬ (some k = some st.cnt) := by
      intro hh
      have := Option.some.inj hh
      omega
    have hstep : rename1 (some k) st (tmpPath path (mkTempSuffix date) t)
        (origPath path t) =
        .ok { st with
                fs := (st.fs.filter (fun x =>
                  decide (x.name ≠ tmpPath path (mkTempSuffix date) t))).concat
                  ⟨origPath path t, true⟩,
                cnt := st.cnt + 1 } := by
      rw [rename1, if_neg hne, hos]
    rw [List.map_cons, forE]
    simp only [hstep]
    have hfsnew : ((st.fs.filter (fun x =>
        decide (x.name ≠ tmpPath path (mkTempSuffix date) t))).concat
        ⟨origPath path t, true⟩).Perm
        (rbFS path (mkTempSuffix date) done2 rest2 (P ++ [t]) R2) := by
      have hnrb : (namesOf (rbFS path (mkTempSuffix date) done2 rest2 P (t :: R2))).Nodup :=
        ((hperm.map Entry.name).nodup_iff).mp hnodup
      have hfeq : (rbFS path (mkTempSuffix date) done2 rest2 P (t :: R2)).filter
          (fun x => decide (x.name ≠ tmpPath path (mkTempSuffix date) t)) =
          ((skippedOf done2).map (fullE path) ++ rest2.map (fullE path) ++
            P.map (origEntryT path)) ++ R2.map (tmpEntry path (mkTempSuffix date)) := by
        have hform : rbFS path (mkTempSuffix date) done2 rest2 P (t :: R2) =
            ((skippedOf done2).map (fullE path) ++ rest2.map (fullE path) ++
              P.map (origEntryT path)) ++
              tmpEntry path (mkTempSuffix date) t ::
                R2.map (tmpEntry path (mkTempSuffix date)) := by
          rw [rbFS]
          simp
        rw [hform]
        apply filter_ne_middle2 _ _ (tmpEntry path (mkTempSuffix date) t) _ rfl
        rw [← hform]
        exact hnrb
      have hfperm := hperm.filter (fun x =>
        decide (x.name ≠ tmpPath path (mkTempSuffix date) t))
      rw [hfeq] at hfperm
      rw [List.concat_eq_append]
      have hgoal1 : (((skippedOf done2).map (fullE path) ++ rest2.map (fullE path) ++
          P.map (origEntryT path)) ++ R2.map (tmpEntry path (mkTempSuffix date))) ++
          [(⟨origPath path t, true⟩ : Entry)] =
          ((skippedOf done2).map (fullE path) ++ rest2.map (fullE path) ++
            P.map (origEntryT path)) ++
            (R2.map (tmpEntry path (mkTempSuffix date)) ++ [origEntryT path t]) := by
        simp [List.append_assoc, origEntryT]
      have hgoal2 : rbFS path (mkTempSuffix date) done2 rest2 (P ++ [t]) R2 =
          ((skippedOf done2).map (fullE path) ++ rest2.map (fullE path) ++
            P.map (origEntryT path)) ++
            ([origEntryT path t] ++ R2.map (tmpEntry path (mkTempSuffix date))) := by
        rw [rbFS]
        simp [List.append_assoc]
      rw [hgoal2]
      refine (List.Perm.append_right _ hfperm).trans ?_
      rw [hgoal1]
      exact List.Perm.append_left _ List.perm_append_comm
    have hstperm : ((st.fs.filter (fun x =>
        decide (x.name ≠ tmpPath path (mkTempSuffix date) t))).concat
        ⟨origPath path t, true⟩).Perm
        (rbFS path (mkTempSuffix date) done2 rest2 (P ++ [t]) R2) := hfsnew
    rcases ih (P ++ [t])
        { st with
            fs := (st.fs.filter (fun x =>
              decide (x.name ≠ tmpPath path (mkTempSuffix date) t))).concat
              ⟨origPath path t, true⟩,
            cnt := st.cnt + 1 }
        (by rw [hmm]; simp) hstperm
        (nodup_after_rename hnodup hdstnot)
        (by simpa using Nat.lt_succ_of_lt hcnt) with ⟨st2, hok, hperm2⟩
    refine ⟨st2, hok, ?_⟩
    have : (P ++ [t]) ++ R2 = P ++ t :: R2 := by simp
    rwa [this] at hperm2

end Rollback

section Claim9

lemma handleFailure_ok {failAt : Option Nat} {st st' : PState} {seqs : Seqs}
    (h : restore_original_names failAt st = .ok st') :
    handleFailure failAt st seqs = ⟨.rolledBack, st'.fs, st'.dict, st'.trace, seqs⟩ := by
  unfold handleFailure
  rw [h]

lemma handleFailure_error {failAt : Option Nat} {st st' : PState} {seqs : Seqs}
    (h : restore_original_names failAt st = .error st') :
    handleFailure failAt st seqs = ⟨.rollbackFailed, st'.fs, st'.dict, st'.trace, seqs⟩ := by
  unfold handleFailure
  rw [h]

lemma matchedOf_map_origEntryT (path : Str) (l : List Entry) :
    (matchedOf l).map (origEntryT path) = (l.filter entryMatched).map (fullE path) := by
  induction l with
  | nil => rfl
  | cons e l2 ih =>
    by_cases hf : e.isFile = true
    · rcases hm : matchParts e.name with _ | t
      · have hem : entryMatched e = false := by simp [entryMatched, hf, hm]
        simp only [matchedOf, List.filterMap_cons, if_pos hf, hm, List.filter_cons, hem]
        exact ih
      · have hem : entryMatched e = true := by simp [entryMatched, hf, hm]
        simp only [matchedOf, List.filterMap_cons, if_pos hf, hm, List.filter_cons, hem]
        simp only [List.map_cons]
        have hoe : origEntryT path t = fullE path e := by
          simp [origEntryT, fullE, origPath, ← (matchParts_some_elim hm).2.1, hf]
        rw [hoe]
        exact congrArg (fullE path e :: ·) ih
    · have hf2 : e.isFile = false := Bool.eq_false_iff.mpr hf
      have hem : entryMatched e = false := by simp [entryMatched, hf2]
      simp only [matchedOf, List.filterMap_cons, hf2, List.filter_cons, hem]
      simpa using ih

lemma p1FS_eq_rbFS (path T : Str) (done2 rest2 : List Entry) :
    p1FS path T done2 rest2 = rbFS path T done2 rest2 [] (matchedOf done2) := by
  rw [p1FS, rbFS]
  simp

lemma rbFS_full_perm (path T : Str) (done2 rest2 : List Entry) :
    (rbFS path T done2 rest2 (matchedOf done2) []).Perm
      ((done2 ++ rest2).map (fullE path)) := by
  have hms : ((done2.filter entryMatched).map (fullE path) ++
      (skippedOf done2).map (fullE path)).Perm (done2.map (fullE path)) := by
    rw [skippedOf, ← List.map_append]
    exact (List.filter_append_perm entryMatched done2).map (fullE path)
  rw [rbFS, matchedOf_map_origEntryT, List.map_append]
  simp only [List.map_nil, List.append_nil]
  have e1 : (skippedOf done2).map (fullE path) ++ rest2.map (fullE path) ++
      (done2.filter entryMatched).map (fullE path) =
      (skippedOf done2).map (fullE path) ++ (rest2.map (fullE path) ++
        (done2.filter entryMatched).map (fullE path)) := by
    simp [List.append_assoc]
  rw [e1]
  refine (List.Perm.append_left _ List.perm_append_comm).trans ?_
  have e2 : (skippedOf done2).map (fullE path) ++
      ((done2.filter entryMatched).map (fullE path) ++ rest2.map (fullE path)) =
      ((skippedOf done2).map (fullE path) ++
        (done2.filter entryMatched).map (fullE path)) ++ rest2.map (fullE path) := by
    simp [List.append_assoc]
  rw [e2]
  refine List.Perm.append_right _ ?_
  exact List.Perm.trans List.perm_append_comm hms

/-- Claim C9: when the injected rename failure strikes during phase 1 (its
index is below the number of matching files, so no phase-2 rename has
happened), the rollback finds every `renaming_dict` entry mapping an
original path to a still-existing staged path, every reverse rename
succeeds, and the directory ends with exactly its original contents. -/
theorem claim9_phase1_failure_rolls_back (path date : Str) (start length k : Nat)
    (entries : List Entry)
    (hnd : (namesOf entries).Nodup)
    (hdate : dotChar ∉ date)
    (hinf : ∀ e ∈ entries, ¬ (mkTempSuffix date) <:+: e.name)
    (hk : k < (matchedOf entries).length) :
    (renumber_files (mkTempSuffix date) path start length (some k)
      (.dir entries)).outcome = .rolledBack ∧
    (renumber_files (mkTempSuffix date) path start length (some k)
      (.dir entries)).fs.Perm
      (entries.map (fun e => Entry.mk (fullP path e.name) e.isFile)) := by
  have hne : entries ≠ [] := by
    intro h
    subst h
    simp [matchedOf] at hk
  have hempty : (entries.map Entry.name).isEmpty = false := by
    cases entries with
    | nil => exact absurd rfl hne
    | cons a l => rfl
  have hinv0 : P1Inv path (mkTempSuffix date) entries [] entries
      (⟨entries.map (fun e => Entry.mk (fullP path e.name) e.isFile), [], 0, []⟩ : PState)
      [] := by
    refine ⟨?_, ?_, ?_, ?_, ?_, ?_⟩
    · rw [show p1FS path (mkTempSuffix date) [] entries = entries.map (fullE path) from
        by simp [p1FS, skippedOf, matchedOf]]
      exact List.Perm.refl _
    · simp [p1Dict, matchedOf]
    · simp [p1Trace, matchedOf]
    · simp [matchedOf]
    · simp [seqsOfTri, matchedOf]
    · rfl
  rcases phase1_sim path date (some k) entries hnd hdate hinf entries []
      (⟨entries.map (fun e => Entry.mk (fullP path e.name) e.isFile), [], 0, []⟩ : PState)
      [] hinv0 with
    ⟨st2, _, _, hcond⟩ |
    ⟨done2, rest2, st2, seqs2, herr, hfs2, hdict2, _, hsplit2, hfail2, hcnt2⟩
  · rcases hcond k rfl with h1 | h1
    · simp [matchedOf] at h1
    · omega
  · have hk2 : k = (matchedOf done2).length := Option.some.inj hfail2
    have hnodup2 : (namesOf st2.fs).Nodup :=
      ((hfs2.map Entry.name).nodup_iff).mpr
        (p1Names_nodup path date done2 rest2 hnd hdate hinf hsplit2)
    rcases restore_fold path date k done2 rest2 hnd hinf hsplit2
        (matchedOf done2) [] st2 (by simp)
        (by rw [← p1FS_eq_rbFS]; exact hfs2) hnodup2 (by omega) with ⟨st3, hok, hperm3⟩
    have hrest : restore_original_names (some k) st2 = .ok st3 := by
      rw [restore_original_names, hdict2, p1Dict]
      exact hok
    have hrun : renumber_files (mkTempSuffix date) path start length (some k)
        (.dir entries) = ⟨.rolledBack, st3.fs, st3.dict, st3.trace, seqs2⟩ := by
      rw [renumber_files]
      simp only [hempty, Bool.false_eq_true, if_false]
      rw [herr]
      exact handleFailure_ok hrest
    rw [hrun]
    refine ⟨rfl, ?_⟩
    have h0 : ([] : List Tri) ++ matchedOf done2 = matchedOf done2 := by simp
    rw [h0] at hperm3
    have hfinal := hperm3.trans (rbFS_full_perm path (mkTempSuffix date) done2 rest2)
    rw [← hsplit2] at hfinal
    exact hfinal

/-- Witness for claim C9: two files `a.1.png`, `a.2.png`, injected failure
at the second rename (still phase 1); the run rolls back and the directory
again holds exactly the two original files. -/
theorem claim9_phase1_failure_rolls_back_witness :
    ((namesOf [⟨"a.1.png".toList, true⟩, ⟨"a.2.png".toList, true⟩]).Nodup ∧
      dotChar ∉ sampleDate ∧
      (∀ e ∈ ([⟨"a.1.png".toList, true⟩, ⟨"a.2.png".toList, true⟩] : List Entry),
        ¬ (mkTempSuffix sampleDate) <:+: e.name) ∧
      1 < (matchedOf [⟨"a.1.png".toList, true⟩, ⟨"a.2.png".toList, true⟩]).length) ∧
    (renumber_files (mkTempSuffix sampleDate) sampleDir 1 2 (some 1)
      (.dir [⟨"a.1.png".toList, true⟩, ⟨"a.2.png".toList, true⟩])).outcome =
        .rolledBack ∧
    (renumber_files (mkTempSuffix sampleDate) sampleDir 1 2 (some 1)
      (.dir [⟨"a.1.png".toList, true⟩, ⟨"a.2.png".toList, true⟩])).fs.Perm
      (([⟨"a.1.png".toList, true⟩, ⟨"a.2.png".toList, true⟩] : List Entry).map
        (fun e => Entry.mk (fullP sampleDir e.name) e.isFile)) := by
  refine ⟨⟨by decide, by decide, by decide, by decide⟩, ?_, ?_⟩
  · exact (claim9_phase1_failure_rolls_back sampleDir sampleDate 1 2 1
      [⟨"a.1.png".toList, true⟩, ⟨"a.2.png".toList, true⟩]
      (by decide) (by decide) (by decide) (by decide)).1
  · exact (claim9_phase1_failure_rolls_back sampleDir sampleDate 1 2 1
      [⟨"a.1.png".toList, true⟩, ⟨"a.2.png".toList, true⟩]
      (by decide) (by decide) (by decide) (by decide)).2

end Claim9

section Phase2Defs

/-- The bare filename assigned by phase 2: base name, zero-padded new
frame number, extension. -/
def finName (length : Nat) (nm ex : Str) (fr : Nat) : Str :=
  mkName nm (frameStr fr length) ex

/-- A file sitting at its final phase-2 name. -/
def finEntryF (path : Str) (length : Nat) (b : (Str × Str) × Nat) : Entry :=
  ⟨fullP path (finName length b.1.1 b.1.2 b.2), true⟩

/-- The parsed triple of one bucket token. -/
def mkTriOf (nm ex u : Str) : Tri := ⟨nm, u, ex⟩

/-- All (key, token) instances of a bucket map, as parsed triples. -/
def trisOfSeqs (s : Seqs) : List Tri :=
  (s.map (fun b => b.2.map (mkTriOf b.1.1 b.1.2))).flatten

lemma trisOfSeqs_cons (b : (Str × Str) × List Str) (s : Seqs) :
    trisOfSeqs (b :: s) = b.2.map (mkTriOf b.1.1 b.1.2) ++ trisOfSeqs s := by
  rw [trisOfSeqs, trisOfSeqs, List.map_cons, List.flatten_cons]

/-- The (key, frame) pairs assigned when numbering a token list from
`fr`. -/
def assignFrames (nm ex : Str) : Nat → List Str → List ((Str × Str) × Nat)
  | _, [] => []
  | fr, _u :: rest => ((nm, ex), fr) :: assignFrames nm ex (fr + 1) rest

/-- Shape of a phase-2 trace event: fresh destination, a staged source,
a final-name destination. -/
def P2Ev (path T : Str) (length : Nat) (ev : REv) : Prop :=
  ev.dstExisted = false ∧
  (∃ t2, TriGood t2 ∧ ev.src = tmpPath path T t2) ∧
  (∃ nm2 ex2 fr2, dotChar ∉ nm2 ∧ dotChar ∉ ex2 ∧
    ev.dst = fullP path (finName length nm2 ex2 fr2))

lemma finName_inj {length : Nat} {nm ex nm2 ex2 : Str} {fr fr2 : Nat}
    (h1 : dotChar ∉ nm) (h2 : dotChar ∉ ex) (h3 : dotChar ∉ nm2) (h4 : dotChar ∉ ex2)
    (h : finName length nm ex fr = finName length nm2 ex2 fr2) :
    nm = nm2 ∧ ex = ex2 ∧ fr = fr2 := by
  rcases mkName_inj h1 (frameStr_dotFree fr length) h2 h3
    (frameStr_dotFree fr2 length) h4 h with ⟨ha, hb, hc⟩
  exact ⟨ha, hc, frameStr_inj length fr fr2 hb⟩

lemma finName_ne_tmpName {length : Nat} {nm ex : Str} {fr : Nat} {date : Str} {t : Tri}
    (h1 : dotChar ∉ nm) (h2 : dotChar ∉ ex) (hdate : dotChar ∉ date) (hg : TriGood t) :
    finName length nm ex fr ≠ tmpName (mkTempSuffix date) t := by
  intro h
  have hTd : dotChar ∉ t.num ++ mkTempSuffix date := by
    intro hm
    rcases List.mem_append.mp hm with hm | hm
    · exact hg.2.1 hm
    · exact mkTempSuffix_dotFree hdate hm
  rcases mkName_inj h1 (frameStr_dotFree fr length) h2 hg.1 hTd hg.2.2.1 h
    with ⟨_, hb, _⟩
  have hu : '_' ∈ frameStr fr length := by
    rw [hb]
    exact List.mem_append.mpr (Or.inr (by rw [mkTempSuffix]; simp))
  exact absurd (frameStr_digits fr length '_' hu) (by decide)

lemma matchParts_finName (length : Nat) (nm ex : Str) (fr : Nat)
    (h1 : dotChar ∉ nm) (h2 : dotChar ∉ ex) :
    matchParts (finName length nm ex fr) = some ⟨nm, frameStr fr length, ex⟩ :=
  matchParts_mkName nm (frameStr fr length) ex h1 (frameStr_dotFree fr length) h2
    (pyIsNumeric_frameStr fr length)

end Phase2Defs

section SeqsStructure

/-- Well-formed bucket: dot-free key parts, numeric dot-free tokens. -/
def BucketGood (b : (Str × Str) × List Str) : Prop :=
  dotChar ∉ b.1.1 ∧ dotChar ∉ b.1.2 ∧
    ∀ u ∈ b.2, pyIsNumeric u = true ∧ dotChar ∉ u

lemma seqsAdd_keys (s : Seqs) (k : Str × Str) (n : Str) :
    (seqsAdd s k n).map (fun b => b.1) =
      if s.any (fun b => decide (b.1 = k)) then s.map (fun b => b.1)
      else s.map (fun b => b.1) ++ [k] := by
  rw [seqsAdd]
  by_cases h : s.any (fun b => decide (b.1 = k)) = true
  · rw [if_pos h, if_pos h, List.map_map]
    apply List.map_congr_left
    intro b _
    by_cases hb : b.1 = k
    · simp [hb]
    · simp [hb]
  · rw [if_neg h, if_neg h]
    simp

lemma seqsAdd_good {s : Seqs} {k : Str × Str} {n : Str}
    (hs : ∀ b ∈ s, BucketGood b)
    (hk1 : dotChar ∉ k.1) (hk2 : dotChar ∉ k.2)
    (hn : pyIsNumeric n = true ∧ dotChar ∉ n) :
    ∀ b ∈ seqsAdd s k n, BucketGood b := by
  intro b hb
  rw [seqsAdd] at hb
  by_cases h : s.any (fun b => decide (b.1 = k)) = true
  · rw [if_pos h] at hb
    rcases List.mem_map.mp hb with ⟨b0, hb0, hbe⟩
    by_cases hbk : b0.1 = k
    · rw [if_pos hbk] at hbe
      rcases hs b0 hb0 with ⟨g1, g2, g3⟩
      rw [← hbe]
      refine ⟨g1, g2, ?_⟩
      intro u hu
      have hu2 : u ∈ b0.2 ∨ u = n := by simpa [List.concat_eq_append] using hu
      rcases hu2 with hu1 | hu1
      · exact g3 u hu1
      · exact hu1 ▸ hn
    · rw [if_neg hbk] at hbe
      exact hbe ▸ hs b0 hb0
  · rw [if_neg h] at hb
    have hb2 : b ∈ s ∨ b = (k, [n]) := by simpa [List.concat_eq_append] using hb
    rcases hb2 with hb1 | hb1
    · exact hs b hb1
    · subst hb1
      refine ⟨hk1, hk2, ?_⟩
      intro u hu
      rw [List.mem_singleton] at hu
      exact hu ▸ hn

lemma seqsAdd_keys_nodup {s : Seqs} {k : Str × Str} {n : Str}
    (hs : (s.map (fun b => b.1)).Nodup) :
    ((seqsAdd s k n).map (fun b => b.1)).Nodup := by
  rw [seqsAdd_keys]
  by_cases h : s.any (fun b => decide (b.1 = k)) = true
  · rw [if_pos h]
    exact hs
  · rw [if_neg h]
    have h2 : ∀ b ∈ s, ¬ (b.1 = k) := by
      intro b hb hbe
      apply h
      rw [List.any_eq_true]
      exact ⟨b, hb, by simp [hbe]⟩
    rw [List.nodup_append]
    refine ⟨hs, by simp, ?_⟩
    intro x hx hx2
    rw [List.mem_singleton] at hx2
    subst hx2
    rcases List.mem_map.mp hx with ⟨b0, hb0, hbe⟩
    exact h2 b0 hb0 hbe

lemma trisOfSeqs_map_update {s : Seqs} {k : Str × Str} {n : Str}
    (hs : (s.map (fun b => b.1)).Nodup)
    (h : s.any (fun b => decide (b.1 = k)) = true) :
    (trisOfSeqs (s.map (fun b => if b.1 = k then (b.1, b.2.concat n) else b))).Perm
      (trisOfSeqs s ++ [mkTriOf k.1 k.2 n]) := by
  induction s with
  | nil => simp [List.any_nil] at h
  | cons b0 s2 ih =>
    rw [List.map_cons, List.nodup_cons] at hs
    by_cases hbk : b0.1 = k
    · have hknot : ∀ b ∈ s2, ¬ (b.1 = k) := by
        intro b hb hbe
        exact hs.1 (hbk ▸ hbe ▸ List.mem_map_of_mem (fun b => b.1) hb)
      have hmap2 : s2.map (fun b => if b.1 = k then (b.1, b.2.concat n) else b) = s2 := by
        have h1 : s2.map (fun b => if b.1 = k then (b.1, b.2.concat n) else b) =
            s2.map (fun b => b) :=
          List.map_congr_left (fun b hb => by rw [if_neg (hknot b hb)])
        simpa using h1
      rw [List.map_cons, if_pos hbk, hmap2, trisOfSeqs_cons, trisOfSeqs_cons]
      have hk1 : b0.1.1 = k.1 := by rw [hbk]
      have hk2 : b0.1.2 = k.2 := by rw [hbk]
      have htr : (b0.2.concat n).map (mkTriOf b0.1.1 b0.1.2) =
          b0.2.map (mkTriOf b0.1.1 b0.1.2) ++ [mkTriOf k.1 k.2 n] := by
        rw [List.concat_eq_append, List.map_append, hk1, hk2]
        rfl
      rw [htr, List.append_assoc, List.append_assoc]
      exact List.Perm.append_left _ List.perm_append_comm
    · have h2 : s2.any (fun b => decide (b.1 = k)) = true := by
        rw [List.any_cons, Bool.or_eq_true] at h
        rcases h with h1 | h1
        · exact absurd (of_decide_eq_true h1) hbk
        · exact h1
      rw [List.map_cons, if_neg hbk, trisOfSeqs_cons, trisOfSeqs_cons]
      rw [List.append_assoc]
      exact List.Perm.append_left _ (ih hs.2 h2)

lemma trisOfSeqs_seqsAdd_perm {s : Seqs} {k : Str × Str} {n : Str}
    (hs : (s.map (fun b => b.1)).Nodup) :
    (trisOfSeqs (seqsAdd s k n)).Perm (trisOfSeqs s ++ [mkTriOf k.1 k.2 n]) := by
  rw [seqsAdd]
  by_cases h : s.any (fun b => decide (b.1 = k)) = true
  · rw [if_pos h]
    exact trisOfSeqs_map_update hs h
  · rw [if_neg h]
    have heq : trisOfSeqs (s.concat (k, [n])) = trisOfSeqs s ++ [mkTriOf k.1 k.2 n] := by
      rw [List.concat_eq_append, trisOfSeqs, trisOfSeqs, List.map_append,
        List.flatten_append]
      simp
    rw [heq]

lemma foldl_seqsAdd_keys_nodup :
    ∀ (M : List Tri) (s0 : Seqs), (s0.map (fun b => b.1)).Nodup →
      ((M.foldl (fun s t => seqsAdd s (t.nm, t.ex) t.num) s0).map (fun b => b.1)).Nodup := by
  intro M
  induction M with
  | nil => intro s0 h; exact h
  | cons t M2 ih =>
    intro s0 h
    rw [List.foldl_cons]
    exact ih _ (seqsAdd_keys_nodup h)

lemma seqsOfTri_keys_nodup (M : List Tri) :
    ((seqsOfTri M).map (fun b => b.1)).Nodup :=
  foldl_seqsAdd_keys_nodup M [] (by simp)

lemma foldl_seqsAdd_good :
    ∀ (M : List Tri) (s0 : Seqs), (∀ t ∈ M, TriGood t) → (∀ b ∈ s0, BucketGood b) →
      ∀ b ∈ M.foldl (fun s t => seqsAdd s (t.nm, t.ex) t.num) s0, BucketGood b := by
  intro M
  induction M with
  | nil => intro s0 _ h0; exact h0
  | cons t M2 ih =>
    intro s0 hM h0
    rw [List.foldl_cons]
    have hg := hM t (List.mem_cons_self t M2)
    exact ih _ (fun t2 ht2 => hM t2 (List.mem_cons_of_mem t ht2))
      (seqsAdd_good h0 hg.1 hg.2.2.1 ⟨hg.2.2.2, hg.2.1⟩)

lemma seqsOfTri_good {M : List Tri} (hM : ∀ t ∈ M, TriGood t) :
    ∀ b ∈ seqsOfTri M, BucketGood b :=
  foldl_seqsAdd_good M [] hM (by simp)

lemma trisOfSeqs_foldl :
    ∀ (M : List Tri) (s0 : Seqs), (s0.map (fun b => b.1)).Nodup →
      (trisOfSeqs (M.foldl (fun s t => seqsAdd s (t.nm, t.ex) t.num) s0)).Perm
        (trisOfSeqs s0 ++ M) := by
  intro M
  induction M with
  | nil => intro s0 _; simp
  | cons t M2 ih =>
    intro s0 h
    rw [List.foldl_cons]
    refine (ih _ (seqsAdd_keys_nodup h)).trans ?_
    refine (List.Perm.append_right M2 (trisOfSeqs_seqsAdd_perm h)).trans ?_
    rw [List.append_assoc]
    have he : mkTriOf t.nm t.ex t.num = t := rfl
    rw [he]
    exact List.Perm.refl _

lemma seqsOfTri_tris_perm (M : List Tri) : (trisOfSeqs (seqsOfTri M)).Perm M := by
  have h := trisOfSeqs_foldl M [] (by simp)
  simpa [seqsOfTri, trisOfSeqs] using h

end SeqsStructure

section Phase2Sim

lemma rename1_error_of_osRename_none {failAt : Option Nat} {st : PState} {src dst : Str}
    (h : osRename st.fs src dst = none) :
    rename1 failAt st src dst = .error { st with cnt := st.cnt + 1 } := by
  rw [rename1]
  by_cases hf : failAt = some st.cnt
  · rw [if_pos hf]
  · rw [if_neg hf, h]

lemma assignFrames_cons (nm ex u : Str) (fr : Nat) (srt : List Str) :
    assignFrames nm ex fr (u :: srt) =
      ((nm, ex), fr) :: assignFrames nm ex (fr + 1) srt := rfl

lemma bucket_sim (path date : Str) (length : Nat) (failAt : Option Nat)
    (skippedE : List Entry) (nm ex : Str)
    (Hsk : ∀ e ∈ skippedE, ∀ nm2 ex2 : Str, ∀ fr2 : Nat, dotChar ∉ nm2 → dotChar ∉ ex2 →
      e.name = fullP path (finName length nm2 ex2 fr2) → e.isFile = false)
    (hdate : dotChar ∉ date)
    (hnm : dotChar ∉ nm) (hex : dotChar ∉ ex) :
    ∀ (srt : List Str) (restTris : List Tri) (fr : Nat) (st : PState)
      (fins : List ((Str × Str) × Nat)),
      (∀ u ∈ srt, pyIsNumeric u = true ∧ dotChar ∉ u) →
      (∀ t2 ∈ restTris, TriGood t2) →
      (∀ p ∈ fins, (dotChar ∉ p.1.1 ∧ dotChar ∉ p.1.2) ∧ (p.1 = (nm, ex) → p.2 < fr)) →
      st.fs.Perm (skippedE ++ fins.map (finEntryF path length) ++
        (srt.map (mkTriOf nm ex) ++ restTris).map (tmpEntry path (mkTempSuffix date))) →
      (namesOf st.fs).Nodup →
      (∃ st2 fr2,
        forE (procSeqStep (mkTempSuffix date) path length failAt nm ex) (st, fr) srt =
          .ok (st2, fr2) ∧
        st2.fs.Perm (skippedE ++
          (fins ++ assignFrames nm ex fr srt).map (finEntryF path length) ++
          restTris.map (tmpEntry path (mkTempSuffix date))) ∧
        (namesOf st2.fs).Nodup ∧
        (∀ p ∈ fins ++ assignFrames nm ex fr srt,
          (dotChar ∉ p.1.1 ∧ dotChar ∉ p.1.2) ∧
            (p.1 = (nm, ex) → p.2 < fr + srt.length)) ∧
        (∃ new, st2.trace = st.trace ++ new ∧
          ∀ ev ∈ new, P2Ev path (mkTempSuffix date) length ev)) ∨
      (∃ es, forE (procSeqStep (mkTempSuffix date) path length failAt nm ex) (st, fr) srt =
          .error es ∧
        (∃ new, es.1.trace = st.trace ++ new ∧
          ∀ ev ∈ new, P2Ev path (mkTempSuffix date) length ev)) := by
  intro srt
  induction srt with
  | nil =>
    intro restTris fr st fins hnum hrest hfin hperm hnodup
    left
    refine ⟨st, fr, rfl, ?_, hnodup, ?_, [], by simp, by simp⟩
    · simpa [assignFrames] using hperm
    · intro p hp
      rw [assignFrames, List.append_nil] at hp
      rcases hfin p hp with ⟨hd, hb⟩
      exact ⟨hd, fun hk => Nat.lt_of_lt_of_le (hb hk) (Nat.le_add_right _ _)⟩
  | cons u srt2 ih =>
    intro restTris fr st fins hnum hrest hfin hperm hnodup
    have hugood : TriGood (mkTriOf nm ex u) := by
      rcases hnum u (List.mem_cons_self u srt2) with ⟨h1, h2⟩
      exact ⟨hnm, h2, hex, h1⟩
    have hsrcmem : (⟨fullP path (mkName nm (u ++ mkTempSuffix date) ex), true⟩ : Entry)
        ∈ st.fs := by
      apply hperm.mem_iff.mpr
      refine List.mem_append.mpr (Or.inr ?_)
      rw [List.map_cons, List.cons_append, List.map_cons]
      exact List.mem_cons_self _ _
    by_cases hex2 : existsAt st.fs (fullP path (finName length nm ex fr)) = true
    · -- the destination path exists: it can only be a skipped non-file,
      -- so the rename raises and the loop stops
      right
      have hmem : fullP path (finName length nm ex fr) ∈ namesOf st.fs :=
        existsAt_true_iff.mp hex2
      rcases List.mem_map.mp hmem with ⟨e, he, hename⟩
      have heE : e ∈ skippedE ++ fins.map (finEntryF path length) ++
          ((u :: srt2).map (mkTriOf nm ex) ++ restTris).map
            (tmpEntry path (mkTempSuffix date)) := hperm.mem_iff.mp he
      have hefile : e.isFile = false := by
        rcases List.mem_append.mp heE with he1 | he1
        · rcases List.mem_append.mp he1 with he2 | he2
          · exact Hsk e he2 nm ex fr hnm hex hename
          · rcases List.mem_map.mp he2 with ⟨p, hp, hpe⟩
            rcases hfin p hp with ⟨⟨hd1, hd2⟩, hb⟩
            have hne : fullP path (finName length p.1.1 p.1.2 p.2) =
                fullP path (finName length nm ex fr) := by
              rw [← hename, ← hpe]
              rfl
            rcases finName_inj hd1 hd2 hnm hex (fullP_inj hne) with ⟨ha, hb2, hc⟩
            have hkey : p.1 = (nm, ex) := Prod.ext ha hb2
            have := hb hkey
            omega
        · rcases List.mem_map.mp he1 with ⟨t2, ht2, hte⟩
          have ht2g : TriGood t2 := by
            rcases List.mem_append.mp ht2 with ht3 | ht3
            · rcases List.mem_map.mp ht3 with ⟨u2, hu2, hue⟩
              rcases hnum u2 hu2 with ⟨g1, g2⟩
              rw [← hue]
              exact ⟨hnm, g2, hex, g1⟩
            · exact hrest t2 ht3
          have hne : fullP path (tmpName (mkTempSuffix date) t2) =
              fullP path (finName length nm ex fr) := by
            rw [← hename, ← hte]
            rfl
          exact absurd (fullP_inj hne).symm
            (finName_ne_tmpName hnm hex hdate ht2g)
      have hedir : (⟨fullP path (finName length nm ex fr), false⟩ : Entry) ∈ st.fs := by
        have he3 : e = ⟨fullP path (finName length nm ex fr), false⟩ := by
          rcases e with ⟨n0, f0⟩
          simp only [Entry.mk.injEq]
          exact ⟨hename, hefile⟩
        rwa [he3] at he
      have hosn : osRename st.fs (fullP path (mkName nm (u ++ mkTempSuffix date) ex))
          (fullP path (finName length nm ex fr)) = none :=
        osRename_dst_dir hnodup hsrcmem hedir
      refine ⟨({ st with cnt := st.cnt + 1 }, fr), ?_, [], by simp, by simp⟩
      rw [forE]
      simp only [procSeqStep]
      rw [rename1_error_of_osRename_none
        (show osRename st.fs (fullP path (mkName nm (u ++ mkTempSuffix date) ex))
          (fullP path (mkName nm (frameStr fr length) ex)) = none from hosn)]
    · -- fresh destination
      rcases hr : rename1 failAt st (fullP path (mkName nm (u ++ mkTempSuffix date) ex))
          (fullP path (mkName nm (frameStr fr length) ex)) with st2 | st2
      · right
        have he2 := rename1_error_elim hr
        refine ⟨(st2, fr), ?_, [], by rw [he2]; simp, by simp⟩
        rw [forE]
        simp only [procSeqStep]
        rw [hr]
      · rcases rename1_ok_elim hr with ⟨htr2, hdict2, hcnt2, hos2⟩
        have hdstnot : fullP path (finName length nm ex fr) ∉ namesOf st.fs :=
          existsAt_false_iff.mp (Bool.eq_false_iff.mpr hex2)
        have hos := osRename_fresh hnodup hsrcmem hdstnot
        have hfs2 : st2.fs = (st.fs.filter (fun x =>
            decide (x.name ≠ fullP path (mkName nm (u ++ mkTempSuffix date) ex)))).concat
            ⟨fullP path (finName length nm ex fr), true⟩ :=
          Option.some.inj (hos2.symm.trans hos)
        have hfsnew : st2.fs.Perm (skippedE ++
            (fins ++ [((nm, ex), fr)]).map (finEntryF path length) ++
            (srt2.map (mkTriOf nm ex) ++ restTris).map
              (tmpEntry path (mkTempSuffix date))) := by
          have hform : skippedE ++ fins.map (finEntryF path length) ++
              ((u :: srt2).map (mkTriOf nm ex) ++ restTris).map
                (tmpEntry path (mkTempSuffix date)) =
              (skippedE ++ fins.map (finEntryF path length)) ++
                tmpEntry path (mkTempSuffix date) (mkTriOf nm ex u) ::
                  (srt2.map (mkTriOf nm ex) ++ restTris).map
                    (tmpEntry path (mkTempSuffix date)) := by
            rw [List.map_cons, List.cons_append, List.map_cons]
          have hfeq : (skippedE ++ fins.map (finEntryF path length) ++
              ((u :: srt2).map (mkTriOf nm ex) ++ restTris).map
                (tmpEntry path (mkTempSuffix date))).filter
              (fun x => decide (x.name ≠
                fullP path (mkName nm (u ++ mkTempSuffix date) ex))) =
              (skippedE ++ fins.map (finEntryF path length)) ++
                (srt2.map (mkTriOf nm ex) ++ restTris).map
                  (tmpEntry path (mkTempSuffix date)) := by
            rw [hform]
            apply filter_ne_middle2 _ _
              (tmpEntry path (mkTempSuffix date) (mkTriOf nm ex u)) _ rfl
            rw [← hform]
            exact ((hperm.map Entry.name).nodup_iff).mp hnodup
          have hfperm := hperm.filter (fun x =>
            decide (x.name ≠ fullP path (mkName nm (u ++ mkTempSuffix date) ex)))
          rw [hfeq] at hfperm
          rw [hfs2, List.concat_eq_append]
          have hg2 : skippedE ++
              (fins ++ [((nm, ex), fr)]).map (finEntryF path length) ++
              (srt2.map (mkTriOf nm ex) ++ restTris).map
                (tmpEntry path (mkTempSuffix date)) =
              (skippedE ++ fins.map (finEntryF path length)) ++
                ([finEntryF path length ((nm, ex), fr)] ++
                  (srt2.map (mkTriOf nm ex) ++ restTris).map
                    (tmpEntry path (mkTempSuffix date))) := by
            rw [List.map_append]
            simp [List.append_assoc]
          have hg1 : ((skippedE ++ fins.map (finEntryF path length)) ++
              (srt2.map (mkTriOf nm ex) ++ restTris).map
                (tmpEntry path (mkTempSuffix date))) ++
              [(⟨fullP path (finName length nm ex fr), true⟩ : Entry)] =
              (skippedE ++ fins.map (finEntryF path length)) ++
                ((srt2.map (mkTriOf nm ex) ++ restTris).map
                  (tmpEntry path (mkTempSuffix date)) ++
                  [finEntryF path length ((nm, ex), fr)]) := by
            rw [List.append_assoc]
            rfl
          rw [hg2]
          refine (List.Perm.append_right _ hfperm).trans ?_
          rw [hg1]
          exact List.Perm.append_left _ List.perm_append_comm
        have hndnew : (namesOf st2.fs).Nodup := by
          rw [hfs2]
          exact nodup_after_rename hnodup hdstnot
        have hfinnew : ∀ p ∈ fins ++ [((nm, ex), fr)],
            (dotChar ∉ p.1.1 ∧ dotChar ∉ p.1.2) ∧ (p.1 = (nm, ex) → p.2 < fr + 1) := by
          intro p hp
          rcases List.mem_append.mp hp with hp1 | hp1
          · rcases hfin p hp1 with ⟨hd, hb⟩
            exact ⟨hd, fun hk => Nat.lt_succ_of_lt (hb hk)⟩
          · rw [List.mem_singleton] at hp1
            subst hp1
            exact ⟨⟨hnm, hex⟩, fun _ => Nat.lt_succ_self fr⟩
        rcases ih restTris (fr + 1)
            ({ st2 with
                 dict := dictSet st2.dict
                   (fullP path (mkName nm (u ++ mkTempSuffix date) ex))
                   (fullP path (finName length nm ex fr)),
                 trace := st2.trace.concat
                   ⟨fullP path (mkName nm (u ++ mkTempSuffix date) ex),
                    fullP path (finName length nm ex fr),
                    existsAt st.fs (fullP path (finName length nm ex fr))⟩ })
            (fins ++ [((nm, ex), fr)])
            (fun u2 hu2 => hnum u2 (List.mem_cons_of_mem u hu2)) hrest hfinnew
            hfsnew hndnew with
          ⟨st3, fr3, hok, hp3, hnd3, hfin3, new3, htr3, hev3⟩ | ⟨es, herr, new3, htr3, hev3⟩
        · left
          refine ⟨st3, fr3, ?_, ?_, hnd3, ?_, ?_⟩
          · rw [forE]
            simp only [procSeqStep]
            rw [hr]
            exact hok
          · rw [assignFrames_cons]
            have hasg : fins ++ ((nm, ex), fr) :: assignFrames nm ex (fr + 1) srt2 =
                (fins ++ [((nm, ex), fr)]) ++ assignFrames nm ex (fr + 1) srt2 := by
              simp
            rw [hasg]
            exact hp3
          · rw [assignFrames_cons]
            intro p hp
            have hp2 : p ∈ (fins ++ [((nm, ex), fr)]) ++
                assignFrames nm ex (fr + 1) srt2 := by
              simpa using hp
            rcases hfin3 p hp2 with ⟨hd, hb⟩
            refine ⟨hd, fun hk => ?_⟩
            have := hb hk
            simp only [List.length_cons]
            omega
          · refine ⟨⟨fullP path (mkName nm (u ++ mkTempSuffix date) ex),
              fullP path (finName length nm ex fr),
              existsAt st.fs (fullP path (finName length nm ex fr))⟩ :: new3, ?_, ?_⟩
            · rw [htr3]
              simp only [htr2, List.concat_eq_append, List.append_assoc,
                List.singleton_append]
            · intro ev hev
              rcases List.mem_cons.mp hev with hev1 | hev1
              · subst hev1
                refine ⟨?_, ⟨mkTriOf nm ex u, hugood, rfl⟩, ⟨nm, ex, fr, hnm, hex, rfl⟩⟩
                show existsAt st.fs (fullP path (finName length nm ex fr)) = false
                exact Bool.eq_false_iff.mpr hex2
              · exact hev3 ev hev1
        · right
          refine ⟨es, ?_, ⟨fullP path (mkName nm (u ++ mkTempSuffix date) ex),
              fullP path (finName length nm ex fr),
              existsAt st.fs (fullP path (finName length nm ex fr))⟩ :: new3, ?_, ?_⟩
          · rw [forE]
            simp only [procSeqStep]
            rw [hr]
            exact herr
          · rw [htr3]
            simp only [htr2, List.concat_eq_append, List.append_assoc,
              List.singleton_append]
          · intro ev hev
            rcases List.mem_cons.mp hev with hev1 | hev1
            · subst hev1
              refine ⟨?_, ⟨mkTriOf nm ex u, hugood, rfl⟩, ⟨nm, ex, fr, hnm, hex, rfl⟩⟩
              show existsAt st.fs (fullP path (finName length nm ex fr)) = false
              exact Bool.eq_false_iff.mpr hex2
            · exact hev3 ev hev1


lemma mem_trisOfSeqs_good {S : Seqs} (hS : ∀ b ∈ S, BucketGood b) :
    ∀ t ∈ trisOfSeqs S, TriGood t := by
  intro t ht
  rw [trisOfSeqs] at ht
  rcases List.mem_flatten.mp ht with ⟨l, hl, htl⟩
  rcases List.mem_map.mp hl with ⟨b, hb, hbe⟩
  rw [← hbe] at htl
  rcases List.mem_map.mp htl with ⟨u, hu, hue⟩
  rcases hS b hb with ⟨g1, g2, g3⟩
  rcases g3 u hu with ⟨n1, n2⟩
  rw [← hue]
  exact ⟨g1, n2, g2, n1⟩

lemma assignFrames_key (nm ex : Str) :
    ∀ (l : List Str) (fr : Nat), ∀ p ∈ assignFrames nm ex fr l, p.1 = (nm, ex) := by
  intro l
  induction l with
  | nil =>
    intro fr p hp
    exact absurd hp (by simp [assignFrames])
  | cons u l2 ih =>
    intro fr p hp
    rw [assignFrames] at hp
    rcases List.mem_cons.mp hp with h | h
    · rw [h]
    · exact ih (fr + 1) p h

lemma restore_trace (failAt : Option Nat) :
    ∀ (l : List (Str × Str)) (st st2 : PState),
      (forE (fun s pr => rename1 failAt s pr.2 pr.1) st l = .ok st2 ∨
       forE (fun s pr => rename1 failAt s pr.2 pr.1) st l = .error st2) →
      st2.trace = st.trace := by
  intro l
  induction l with
  | nil =>
    intro st st2 h
    rcases h with h | h
    · rw [forE] at h
      rw [← Except.ok.inj h]
    · rw [forE] at h
      exact absurd h (by simp)
  | cons pr l2 ih =>
    intro st st2 h
    rcases hr : rename1 failAt st pr.2 pr.1 with st3 | st3
    · have he : forE (fun s pr => rename1 failAt s pr.2 pr.1) st (pr :: l2) =
          .error st3 := by
        simp only [forE]
        rw [hr]
      rcases h with h | h
      · rw [he] at h
        exact absurd h (by simp)
      · rw [he] at h
        rw [← Except.error.inj h, rename1_error_elim hr]
    · have he : forE (fun s pr => rename1 failAt s pr.2 pr.1) st (pr :: l2) =
          forE (fun s pr => rename1 failAt s pr.2 pr.1) st3 l2 := by
        simp only [forE]
        rw [hr]
      rw [he] at h
      rw [ih st3 st2 h, (rename1_ok_elim hr).1]

lemma phase2_sim (path date : Str) (start length : Nat) (failAt : Option Nat)
    (skippedE : List Entry)
    (Hsk : ∀ e ∈ skippedE, ∀ nm2 ex2 : Str, ∀ fr2 : Nat, dotChar ∉ nm2 → dotChar ∉ ex2 →
      e.name = fullP path (finName length nm2 ex2 fr2) → e.isFile = false)
    (hdate : dotChar ∉ date) :
    ∀ (S : Seqs) (st : PState) (fins : List ((Str × Str) × Nat)),
      (∀ b ∈ S, BucketGood b) →
      ((S.map (fun b => b.1)).Nodup) →
      (∀ p ∈ fins, (dotChar ∉ p.1.1 ∧ dotChar ∉ p.1.2) ∧ p.1 ∉ S.map (fun b => b.1)) →
      st.fs.Perm (skippedE ++ fins.map (finEntryF path length) ++
        (trisOfSeqs S).map (tmpEntry path (mkTempSuffix date))) →
      (namesOf st.fs).Nodup →
      (∃ (st2 : PState) (fins2 : List ((Str × Str) × Nat)),
        forE (procBucket (mkTempSuffix date) path start length failAt) st S = .ok st2 ∧
        st2.fs.Perm (skippedE ++ fins2.map (finEntryF path length)) ∧
        (∃ new, st2.trace = st.trace ++ new ∧
          ∀ ev ∈ new, P2Ev path (mkTempSuffix date) length ev)) ∨
      (∃ st2,
        forE (procBucket (mkTempSuffix date) path start length failAt) st S = .error st2 ∧
        (∃ new, st2.trace = st.trace ++ new ∧
          ∀ ev ∈ new, P2Ev path (mkTempSuffix date) length ev)) := by
  intro S
  induction S with
  | nil =>
    intro st fins _ _ _ hperm _
    left
    refine ⟨st, fins, rfl, ?_, [], by simp, by simp⟩
    simpa [trisOfSeqs] using hperm
  | cons b S2 ih =>
    intro st fins hgood hkeys hfins hperm hnodup
    rcases hgood b (List.mem_cons_self b S2) with ⟨hnm, hex, htoks⟩
    have hkeys2 : (S2.map (fun b => b.1)).Nodup := by
      rw [List.map_cons] at hkeys
      exact hkeys.of_cons
    have hknot : b.1 ∉ S2.map (fun b => b.1) := by
      rw [List.map_cons] at hkeys
      exact (List.nodup_cons.mp hkeys).1
    have hnum : ∀ u ∈ sortByInt b.2, pyIsNumeric u = true ∧ dotChar ∉ u := by
      intro u hu
      exact htoks u ((sortByInt_perm b.2).mem_iff.mp hu)
    have hrest : ∀ t2 ∈ trisOfSeqs S2, TriGood t2 :=
      mem_trisOfSeqs_good (fun b2 hb2 => hgood b2 (List.mem_cons_of_mem b hb2))
    have hfin : ∀ p ∈ fins, (dotChar ∉ p.1.1 ∧ dotChar ∉ p.1.2) ∧
        (p.1 = (b.1.1, b.1.2) → p.2 < start) := by
      intro p hp
      rcases hfins p hp with ⟨hd, hnk⟩
      refine ⟨hd, fun hk => absurd ?_ hnk⟩
      rw [List.map_cons, hk]
      exact List.mem_cons_self _ _
    have hmapp : ((b.2.map (mkTriOf b.1.1 b.1.2) ++ trisOfSeqs S2).map
        (tmpEntry path (mkTempSuffix date))).Perm
        (((sortByInt b.2).map (mkTriOf b.1.1 b.1.2) ++ trisOfSeqs S2).map
          (tmpEntry path (mkTempSuffix date))) :=
      (List.Perm.append_right (trisOfSeqs S2)
        ((sortByInt_perm b.2).symm.map (mkTriOf b.1.1 b.1.2))).map
        (tmpEntry path (mkTempSuffix date))
    have hperm2 : st.fs.Perm (skippedE ++ fins.map (finEntryF path length) ++
        ((sortByInt b.2).map (mkTriOf b.1.1 b.1.2) ++ trisOfSeqs S2).map
          (tmpEntry path (mkTempSuffix date))) := by
      refine hperm.trans ?_
      rw [trisOfSeqs_cons]
      exact List.Perm.append_left _ hmapp
    rcases bucket_sim path date length failAt skippedE b.1.1 b.1.2 Hsk hdate hnm hex
        (sortByInt b.2) (trisOfSeqs S2) start st fins hnum hrest hfin hperm2 hnodup with
      ⟨st2, fr2, hok, hperm3, hnd3, hfin3, new2, htr2, hev2⟩ |
      ⟨es, herr, new2, htr2, hev2⟩
    · have hb : procBucket (mkTempSuffix date) path start length failAt st b = .ok st2 := by
        rw [procBucket, hok]
      have hfold : forE (procBucket (mkTempSuffix date) path start length failAt) st
          (b :: S2) =
          forE (procBucket (mkTempSuffix date) path start length failAt) st2 S2 := by
        rw [forE, hb]
      have hfins2 : ∀ p ∈ fins ++ assignFrames b.1.1 b.1.2 start (sortByInt b.2),
          (dotChar ∉ p.1.1 ∧ dotChar ∉ p.1.2) ∧ p.1 ∉ S2.map (fun b => b.1) := by
        intro p hp
        rcases List.mem_append.mp hp with hp1 | hp1
        · rcases hfins p hp1 with ⟨hd, hnk⟩
          refine ⟨hd, fun hmem => hnk ?_⟩
          rw [List.map_cons]
          exact List.mem_cons_of_mem _ hmem
        · have hkey := assignFrames_key b.1.1 b.1.2 (sortByInt b.2) start p hp1
          refine ⟨?_, ?_⟩
          · rw [hkey]
            exact ⟨hnm, hex⟩
          · rw [hkey]
            exact hknot
      rcases ih st2 (fins ++ assignFrames b.1.1 b.1.2 start (sortByInt b.2))
          (fun b2 hb2 => hgood b2 (List.mem_cons_of_mem b hb2)) hkeys2 hfins2 hperm3
          hnd3 with
        ⟨st3, fins3, hok3, hperm4, new3, htr3, hev3⟩ | ⟨st3, herr3, new3, htr3, hev3⟩
      · left
        refine ⟨st3, fins3, ?_, hperm4, new2 ++ new3, ?_, ?_⟩
        · rw [hfold]
          exact hok3
        · rw [htr3, htr2, List.append_assoc]
        · intro ev hev
          rcases List.mem_append.mp hev with h | h
          · exact hev2 ev h
          · exact hev3 ev h
      · right
        refine ⟨st3, ?_, new2 ++ new3, ?_, ?_⟩
        · rw [hfold]
          exact herr3
        · rw [htr3, htr2, List.append_assoc]
        · intro ev hev
          rcases List.mem_append.mp hev with h | h
          · exact hev2 ev h
          · exact hev3 ev h
    · right
      have hb : procBucket (mkTempSuffix date) path start length failAt st b =
          .error es.1 := by
        rw [procBucket, herr]
      have hfold : forE (procBucket (mkTempSuffix date) path start length failAt) st
          (b :: S2) = .error es.1 := by
        rw [forE, hb]
      exact ⟨es.1, hfold, new2, htr2, hev2⟩

end Phase2Sim


section FullRun

lemma p1Trace_dstExisted {path T : Str} {done : List Entry} {ev : REv}
    (h : ev ∈ p1Trace path T done) : ev.dstExisted = false := by
  rw [p1Trace] at h
  rcases List.mem_map.mp h with ⟨t, _, he⟩
  rw [← he]

/-- The invariant of the phase-1 loop at its entry point. -/
lemma init_P1Inv (path T : Str) (entries : List Entry) :
    P1Inv path T entries [] entries
      (⟨entries.map (fun e => Entry.mk (fullP path e.name) e.isFile), [], 0, []⟩ : PState)
      [] := by
  refine ⟨?_, ?_, ?_, ?_, ?_, ?_⟩
  · rw [show p1FS path T [] entries = entries.map (fullE path) from
      by simp [p1FS, skippedOf, matchedOf]]
    exact List.Perm.refl _
  · simp [p1Dict, matchedOf]
  · simp [p1Trace, matchedOf]
  · simp [matchedOf]
  · simp [seqsOfTri, matchedOf]
  · rfl

/-- A skipped entry sitting at a final-shaped name cannot be a regular
file: a file whose name parses as `<name>.<digits>.<ext>` is matched, not
skipped. -/
lemma skippedE_Hsk (path : Str) (length : Nat) (entries : List Entry) :
    ∀ e ∈ (skippedOf entries).map (fullE path), ∀ nm2 ex2 : Str, ∀ fr2 : Nat,
      dotChar ∉ nm2 → dotChar ∉ ex2 →
      e.name = fullP path (finName length nm2 ex2 fr2) → e.isFile = false := by
  intro e he nm2 ex2 fr2 h1 h2 hname
  rcases List.mem_map.mp he with ⟨e0, he0, hee⟩
  have hsk : entryMatched e0 = false := by
    have h3 := (List.mem_filter.mp he0).2
    simpa using h3
  have hee1 : e.name = fullP path e0.name := by
    rw [← hee]
    rfl
  have hee2 : e.isFile = e0.isFile := by
    rw [← hee]
    rfl
  rw [hee2]
  cases hisf : e0.isFile with
  | false => rfl
  | true =>
    exfalso
    have hname2 : e0.name = finName length nm2 ex2 fr2 :=
      fullP_inj (hee1.symm.trans hname)
    have hm : matchParts e0.name = some ⟨nm2, frameStr fr2 length, ex2⟩ := by
      rw [hname2]
      exact matchParts_finName length nm2 ex2 fr2 h1 h2
    rw [entryMatched, hisf, hm] at hsk
    simp at hsk

/-- Under distinct listing names, a matched triple never carries the name
of a skipped entry. -/
lemma matched_name_ne_skipped {entries : List Entry} {e : Entry} {t : Tri}
    (hnd : (namesOf entries).Nodup) (he : e ∈ entries) (hskE : entryMatched e = false)
    (ht : t ∈ matchedOf entries) : origName t ≠ e.name := by
  intro h
  rcases mem_matchedOf_entry ht with ⟨e2, he2, hm2, hn2⟩
  have he12 : e2 = e := mem_name_unique hnd he2 he (hn2.trans h)
  rw [he12, hskE] at hm2
  exact absurd hm2 (by simp)

/-- Claim C10: over a directory listing with distinct names none of which
embeds the run's temporary suffix, every rename the run records — phase 1
and phase 2, under any fault injection — found its destination path free,
so no existing file is silently overwritten or lost. -/
theorem claim10_fresh_destinations (path date : Str) (start length : Nat)
    (failAt : Option Nat) (entries : List Entry)
    (hnd : (namesOf entries).Nodup)
    (hdate : dotChar ∉ date)
    (hinf : ∀ e ∈ entries, ¬ (mkTempSuffix date) <:+: e.name) :
    ∀ ev ∈ (renumber_files (mkTempSuffix date) path start length failAt
      (.dir entries)).trace, ev.dstExisted = false := by
  intro ev hev
  by_cases hempty : (entries.map Entry.name).isEmpty = true
  · simp [renumber_files, hempty] at hev
  · have hempty2 : (entries.map Entry.name).isEmpty = false := Bool.eq_false_iff.mpr hempty
    rcases phase1_sim path date failAt entries hnd hdate hinf entries []
        (⟨entries.map (fun e => Entry.mk (fullP path e.name) e.isFile), [], 0, []⟩ : PState)
        [] (init_P1Inv path (mkTempSuffix date) entries) with
      ⟨st2, hok1, hinv2, _⟩ |
      ⟨done2, rest2, st2, seqs2, herr1, _, _, htrace2, _, _, _⟩
    · have hnodup2 : (namesOf st2.fs).Nodup :=
        ((hinv2.hfs.map Entry.name).nodup_iff).mpr
          (p1Names_nodup path date entries [] hnd hdate hinf (by simp))
      have hperm0 : st2.fs.Perm ((skippedOf entries).map (fullE path) ++
          ([] : List ((Str × Str) × Nat)).map (finEntryF path length) ++
          (trisOfSeqs (seqsOfTri (matchedOf entries))).map
            (tmpEntry path (mkTempSuffix date))) := by
        refine hinv2.hfs.trans ?_
        rw [p1FS]
        simp only [List.map_nil, List.append_nil, List.nil_append]
        refine List.Perm.append_left _ ?_
        exact ((seqsOfTri_tris_perm (matchedOf entries)).map
          (tmpEntry path (mkTempSuffix date))).symm
      rcases phase2_sim path date start length failAt
          ((skippedOf entries).map (fullE path))
          (skippedE_Hsk path length entries) hdate
          (seqsOfTri (matchedOf entries)) st2 []
          (seqsOfTri_good (fun t ht => mem_matchedOf_good ht))
          (seqsOfTri_keys_nodup _)
          (fun p hp => absurd hp (List.not_mem_nil p))
          hperm0 hnodup2 with
        ⟨st3, fins3, hok2, hperm4, new2, htr3, hev2⟩ | ⟨st3, herr2, new2, htr3, hev2⟩
      · have hrun : renumber_files (mkTempSuffix date) path start length failAt
            (.dir entries) =
            ⟨.ok, st3.fs, st3.dict, st3.trace, seqsOfTri (matchedOf entries)⟩ := by
          rw [renumber_files]
          simp only [hempty2, Bool.false_eq_true, if_false]
          rw [hok1]
          show (match forE (procBucket (mkTempSuffix date) path start length failAt) st2
              (seqsOfTri (matchedOf entries)) with
            | .error st4 => handleFailure failAt st4 (seqsOfTri (matchedOf entries))
            | .ok st4 => (⟨.ok, st4.fs, st4.dict, st4.trace,
                seqsOfTri (matchedOf entries)⟩ : RunResult)) = _
          rw [hok2]
        rw [hrun] at hev
        have hev3 : ev ∈ st3.trace := hev
        rw [htr3, hinv2.htrace] at hev3
        rcases List.mem_append.mp hev3 with h | h
        · exact p1Trace_dstExisted h
        · exact (hev2 ev h).1
      · rcases hres : restore_original_names failAt st3 with st4 | st4
        · have hrun : renumber_files (mkTempSuffix date) path start length failAt
              (.dir entries) =
              ⟨.rollbackFailed, st4.fs, st4.dict, st4.trace,
                seqsOfTri (matchedOf entries)⟩ := by
            rw [renumber_files]
            simp only [hempty2, Bool.false_eq_true, if_false]
            rw [hok1]
            show (match forE (procBucket (mkTempSuffix date) path start length failAt) st2
                (seqsOfTri (matchedOf entries)) with
              | .error st5 => handleFailure failAt st5 (seqsOfTri (matchedOf entries))
              | .ok st5 => (⟨.ok, st5.fs, st5.dict, st5.trace,
                  seqsOfTri (matchedOf entries)⟩ : RunResult)) = _
            rw [herr2]
            exact handleFailure_error hres
          have htr4 : st4.trace = st3.trace := by
            rw [restore_original_names] at hres
            exact restore_trace failAt st3.dict st3 st4 (Or.inr hres)
          rw [hrun] at hev
          have hev3 : ev ∈ st4.trace := hev
          rw [htr4, htr3, hinv2.htrace] at hev3
          rcases List.mem_append.mp hev3 with h | h
          · exact p1Trace_dstExisted h
          · exact (hev2 ev h).1
        · have hrun : renumber_files (mkTempSuffix date) path start length failAt
              (.dir entries) =
              ⟨.rolledBack, st4.fs, st4.dict, st4.trace,
                seqsOfTri (matchedOf entries)⟩ := by
            rw [renumber_files]
            simp only [hempty2, Bool.false_eq_true, if_false]
            rw [hok1]
            show (match forE (procBucket (mkTempSuffix date) path start length failAt) st2
                (seqsOfTri (matchedOf entries)) with
              | .error st5 => handleFailure failAt st5 (seqsOfTri (matchedOf entries))
              | .ok st5 => (⟨.ok, st5.fs, st5.dict, st5.trace,
                  seqsOfTri (matchedOf entries)⟩ : RunResult)) = _
            rw [herr2]
            exact handleFailure_ok hres
          have htr4 : st4.trace = st3.trace := by
            rw [restore_original_names] at hres
            exact restore_trace failAt st3.dict st3 st4 (Or.inl hres)
          rw [hrun] at hev
          have hev3 : ev ∈ st4.trace := hev
          rw [htr4, htr3, hinv2.htrace] at hev3
          rcases List.mem_append.mp hev3 with h | h
          · exact p1Trace_dstExisted h
          · exact (hev2 ev h).1
    · rcases hres : restore_original_names failAt st2 with st4 | st4
      · have hrun : renumber_files (mkTempSuffix date) path start length failAt
            (.dir entries) =
            ⟨.rollbackFailed, st4.fs, st4.dict, st4.trace, seqs2⟩ := by
          rw [renumber_files]
          simp only [hempty2, Bool.false_eq_true, if_false]
          rw [herr1]
          exact handleFailure_error hres
        have htr4 : st4.trace = st2.trace := by
          rw [restore_original_names] at hres
          exact restore_trace failAt st2.dict st2 st4 (Or.inr hres)
        rw [hrun] at hev
        have hev3 : ev ∈ st4.trace := hev
        rw [htr4, htrace2] at hev3
        exact p1Trace_dstExisted hev3
      · have hrun : renumber_files (mkTempSuffix date) path start length failAt
            (.dir entries) =
            ⟨.rolledBack, st4.fs, st4.dict, st4.trace, seqs2⟩ := by
          rw [renumber_files]
          simp only [hempty2, Bool.false_eq_true, if_false]
          rw [herr1]
          exact handleFailure_ok hres
        have htr4 : st4.trace = st2.trace := by
          rw [restore_original_names] at hres
          exact restore_trace failAt st2.dict st2 st4 (Or.inl hres)
        rw [hrun] at hev
        have hev3 : ev ∈ st4.trace := hev
        rw [htr4, htrace2] at hev3
        exact p1Trace_dstExisted hev3

/-- Witness for claim C10: `a.1.png` and `a.01.png` share the integer
frame value 1; every rename the run records still finds its destination
free. -/
theorem claim10_fresh_destinations_witness :
    ((namesOf [⟨"a.1.png".toList, true⟩, ⟨"a.01.png".toList, true⟩]).Nodup ∧
      dotChar ∉ sampleDate ∧
      (∀ e ∈ ([⟨"a.1.png".toList, true⟩, ⟨"a.01.png".toList, true⟩] : List Entry),
        ¬ (mkTempSuffix sampleDate) <:+: e.name)) ∧
    (∀ ev ∈ (renumber_files (mkTempSuffix sampleDate) sampleDir 1 2 none
      (.dir [⟨"a.1.png".toList, true⟩, ⟨"a.01.png".toList, true⟩])).trace,
      ev.dstExisted = false) :=
  ⟨⟨by decide, by decide, by decide⟩,
    claim10_fresh_destinations sampleDir sampleDate 1 2 none
      [⟨"a.1.png".toList, true⟩, ⟨"a.01.png".toList, true⟩]
      (by decide) (by decide) (by decide)⟩


/-- Counterexample to claim C5 as stated: the claim lists files with two
separator occurrences among the skipped ones, but a name with exactly two
dots splits into exactly three parts and is therefore processed.
`a.5.png` has two dots, yet a run over it completes, removes the name
from the directory, records renames for it, and leaves `a.01.png`
instead. -/
theorem claim5_counterexample :
    "a.5.png".toList.count dotChar = 2 ∧
    (renumber_files sampleT sampleDir 1 2 none
      (.dir [⟨"a.5.png".toList, true⟩])).outcome = .ok ∧
    fullP sampleDir "a.5.png".toList ∉
      namesOf (renumber_files sampleT sampleDir 1 2 none
        (.dir [⟨"a.5.png".toList, true⟩])).fs ∧
    fullP sampleDir "a.01.png".toList ∈
      namesOf (renumber_files sampleT sampleDir 1 2 none
        (.dir [⟨"a.5.png".toList, true⟩])).fs ∧
    (renumber_files sampleT sampleDir 1 2 none
      (.dir [⟨"a.5.png".toList, true⟩])).trace ≠ [] := by
  decide

/-- Claim C5 (amended): in a run over a directory listing that completes
normally, exactly the regular files whose name splits on the dot into
three parts — two separator occurrences — with a numeric middle part are
bucketed and renamed: each such file's original path is the source of a
recorded rename and the bucket map holds exactly the parsed triples of
those files, while every non-matching entry keeps its original path on
disk, is never the source of a recorded rename, and contributes to no
bucket. -/
theorem claim5_match_criterion (path date : Str) (start length : Nat)
    (failAt : Option Nat) (entries : List Entry)
    (hnd : (namesOf entries).Nodup)
    (hdate : dotChar ∉ date)
    (hinf : ∀ e ∈ entries, ¬ (mkTempSuffix date) <:+: e.name)
    (hout : (renumber_files (mkTempSuffix date) path start length failAt
      (.dir entries)).outcome = .ok) :
    (trisOfSeqs (renumber_files (mkTempSuffix date) path start length failAt
      (.dir entries)).seqs).Perm (matchedOf entries) ∧
    (∀ t ∈ matchedOf entries,
      ∃ ev ∈ (renumber_files (mkTempSuffix date) path start length failAt
        (.dir entries)).trace, ev.src = origPath path t) ∧
    (∀ e ∈ entries, entryMatched e = false →
      fullP path e.name ∈ namesOf (renumber_files (mkTempSuffix date) path start length
        failAt (.dir entries)).fs ∧
      (∀ ev ∈ (renumber_files (mkTempSuffix date) path start length failAt
        (.dir entries)).trace, ev.src ≠ fullP path e.name) ∧
      (∀ t ∈ trisOfSeqs (renumber_files (mkTempSuffix date) path start length failAt
        (.dir entries)).seqs, origName t ≠ e.name)) := by
  by_cases hempty : (entries.map Entry.name).isEmpty = true
  · rw [renumber_files] at hout
    simp [hempty] at hout
  · have hempty2 : (entries.map Entry.name).isEmpty = false := Bool.eq_false_iff.mpr hempty
    rcases phase1_sim path date failAt entries hnd hdate hinf entries []
        (⟨entries.map (fun e => Entry.mk (fullP path e.name) e.isFile), [], 0, []⟩ : PState)
        [] (init_P1Inv path (mkTempSuffix date) entries) with
      ⟨st2, hok1, hinv2, _⟩ |
      ⟨done2, rest2, st2, seqs2, herr1, _, _, htrace2, _, _, _⟩
    · have hnodup2 : (namesOf st2.fs).Nodup :=
        ((hinv2.hfs.map Entry.name).nodup_iff).mpr
          (p1Names_nodup path date entries [] hnd hdate hinf (by simp))
      have hperm0 : st2.fs.Perm ((skippedOf entries).map (fullE path) ++
          ([] : List ((Str × Str) × Nat)).map (finEntryF path length) ++
          (trisOfSeqs (seqsOfTri (matchedOf entries))).map
            (tmpEntry path (mkTempSuffix date))) := by
        refine hinv2.hfs.trans ?_
        rw [p1FS]
        simp only [List.map_nil, List.append_nil, List.nil_append]
        refine List.Perm.append_left _ ?_
        exact ((seqsOfTri_tris_perm (matchedOf entries)).map
          (tmpEntry path (mkTempSuffix date))).symm
      rcases phase2_sim path date start length failAt
          ((skippedOf entries).map (fullE path))
          (skippedE_Hsk path length entries) hdate
          (seqsOfTri (matchedOf entries)) st2 []
          (seqsOfTri_good (fun t ht => mem_matchedOf_good ht))
          (seqsOfTri_keys_nodup _)
          (fun p hp => absurd hp (List.not_mem_nil p))
          hperm0 hnodup2 with
        ⟨st3, fins3, hok2, hperm4, new2, htr3, hev2⟩ | ⟨st3, herr2, new2, htr3, hev2⟩
      · have hrun : renumber_files (mkTempSuffix date) path start length failAt
            (.dir entries) =
            ⟨.ok, st3.fs, st3.dict, st3.trace, seqsOfTri (matchedOf entries)⟩ := by
          rw [renumber_files]
          simp only [hempty2, Bool.false_eq_true, if_false]
          rw [hok1]
          show (match forE (procBucket (mkTempSuffix date) path start length failAt) st2
              (seqsOfTri (matchedOf entries)) with
            | .error st4 => handleFailure failAt st4 (seqsOfTri (matchedOf entries))
            | .ok st4 => (⟨.ok, st4.fs, st4.dict, st4.trace,
                seqsOfTri (matchedOf entries)⟩ : RunResult)) = _
          rw [hok2]
        refine ⟨?_, ?_, ?_⟩
        · rw [hrun]
          show (trisOfSeqs (seqsOfTri (matchedOf entries))).Perm (matchedOf entries)
          exact seqsOfTri_tris_perm _
        · intro t ht
          refine ⟨⟨origPath path t, tmpPath path (mkTempSuffix date) t, false⟩, ?_, rfl⟩
          rw [hrun]
          show (⟨origPath path t, tmpPath path (mkTempSuffix date) t, false⟩ : REv) ∈
            st3.trace
          rw [htr3, hinv2.htrace]
          refine List.mem_append.mpr (Or.inl ?_)
          rw [p1Trace]
          exact List.mem_map_of_mem _ ht
        · intro e he hskE
          have heSk : e ∈ skippedOf entries := List.mem_filter.mpr ⟨he, by simp [hskE]⟩
          refine ⟨?_, ?_, ?_⟩
          · rw [hrun]
            show fullP path e.name ∈ namesOf st3.fs
            have hmem : fullE path e ∈ st3.fs := hperm4.mem_iff.mpr
              (List.mem_append.mpr (Or.inl (List.mem_map_of_mem (fullE path) heSk)))
            exact List.mem_map_of_mem Entry.name hmem
          · intro ev hev
            rw [hrun] at hev
            have hev3 : ev ∈ st3.trace := hev
            rw [htr3, hinv2.htrace] at hev3
            rcases List.mem_append.mp hev3 with h | h
            · rw [p1Trace] at h
              rcases List.mem_map.mp h with ⟨t, ht, hte⟩
              intro hsrc
              rw [← hte] at hsrc
              have hsrc2 : fullP path (origName t) = fullP path e.name := hsrc
              exact matched_name_ne_skipped hnd he hskE ht (fullP_inj hsrc2)
            · rcases hev2 ev h with ⟨_, ⟨t2, _, hsrc⟩, _⟩
              intro hsrce
              rw [hsrc] at hsrce
              have hname : tmpName (mkTempSuffix date) t2 = e.name :=
                fullP_inj hsrce
              have hT : (mkTempSuffix date) <:+: e.name := by
                rw [← hname]
                exact tmpName_infix _ _
              exact hinf e he hT
          · intro t ht
            rw [hrun] at ht
            have ht2 : t ∈ trisOfSeqs (seqsOfTri (matchedOf entries)) := ht
            exact matched_name_ne_skipped hnd he hskE
              ((seqsOfTri_tris_perm (matchedOf entries)).mem_iff.mp ht2)
      · exfalso
        rcases hres : restore_original_names failAt st3 with st4 | st4
        · have hrun : renumber_files (mkTempSuffix date) path start length failAt
              (.dir entries) =
              ⟨.rollbackFailed, st4.fs, st4.dict, st4.trace,
                seqsOfTri (matchedOf entries)⟩ := by
            rw [renumber_files]
            simp only [hempty2, Bool.false_eq_true, if_false]
            rw [hok1]
            show (match forE (procBucket (mkTempSuffix date) path start length failAt) st2
                (seqsOfTri (matchedOf entries)) with
              | .error st5 => handleFailure failAt st5 (seqsOfTri (matchedOf entries))
              | .ok st5 => (⟨.ok, st5.fs, st5.dict, st5.trace,
                  seqsOfTri (matchedOf entries)⟩ : RunResult)) = _
            rw [herr2]
            exact handleFailure_error hres
          rw [hrun] at hout
          simp at hout
        · have hrun : renumber_files (mkTempSuffix date) path start length failAt
              (.dir entries) =
              ⟨.rolledBack, st4.fs, st4.dict, st4.trace,
                seqsOfTri (matchedOf entries)⟩ := by
            rw [renumber_files]
            simp only [hempty2, Bool.false_eq_true, if_false]
            rw [hok1]
            show (match forE (procBucket (mkTempSuffix date) path start length failAt) st2
                (seqsOfTri (matchedOf entries)) with
              | .error st5 => handleFailure failAt st5 (seqsOfTri (matchedOf entries))
              | .ok st5 => (⟨.ok, st5.fs, st5.dict, st5.trace,
                  seqsOfTri (matchedOf entries)⟩ : RunResult)) = _
            rw [herr2]
            exact handleFailure_ok hres
          rw [hrun] at hout
          simp at hout
    · exfalso
      rcases hres : restore_original_names failAt st2 with st4 | st4
      · have hrun : renumber_files (mkTempSuffix date) path start length failAt
            (.dir entries) =
            ⟨.rollbackFailed, st4.fs, st4.dict, st4.trace, seqs2⟩ := by
          rw [renumber_files]
          simp only [hempty2, Bool.false_eq_true, if_false]
          rw [herr1]
          exact handleFailure_error hres
        rw [hrun] at hout
        simp at hout
      · have hrun : renumber_files (mkTempSuffix date) path start length failAt
            (.dir entries) =
            ⟨.rolledBack, st4.fs, st4.dict, st4.trace, seqs2⟩ := by
          rw [renumber_files]
          simp only [hempty2, Bool.false_eq_true, if_false]
          rw [herr1]
          exact handleFailure_ok hres
        rw [hrun] at hout
        simp at hout

/-- Witness for the amended claim C5: a matching file `a.5.png` next to a
two-segment file `readme.txt` and a non-numeric-middle file `a.x.png`. -/
theorem claim5_match_criterion_witness :
    ((namesOf [⟨"a.5.png".toList, true⟩, ⟨"readme.txt".toList, true⟩,
        ⟨"a.x.png".toList, true⟩]).Nodup ∧
      dotChar ∉ sampleDate ∧
      (∀ e ∈ ([⟨"a.5.png".toList, true⟩, ⟨"readme.txt".toList, true⟩,
          ⟨"a.x.png".toList, true⟩] : List Entry),
        ¬ (mkTempSuffix sampleDate) <:+: e.name) ∧
      (renumber_files (mkTempSuffix sampleDate) sampleDir 1 2 none
        (.dir [⟨"a.5.png".toList, true⟩, ⟨"readme.txt".toList, true⟩,
          ⟨"a.x.png".toList, true⟩])).outcome = .ok) ∧
    ((trisOfSeqs (renumber_files (mkTempSuffix sampleDate) sampleDir 1 2 none
      (.dir [⟨"a.5.png".toList, true⟩, ⟨"readme.txt".toList, true⟩,
        ⟨"a.x.png".toList, true⟩])).seqs).Perm
      (matchedOf [⟨"a.5.png".toList, true⟩, ⟨"readme.txt".toList, true⟩,
        ⟨"a.x.png".toList, true⟩]) ∧
    (∀ t ∈ matchedOf [⟨"a.5.png".toList, true⟩, ⟨"readme.txt".toList, true⟩,
        ⟨"a.x.png".toList, true⟩],
      ∃ ev ∈ (renumber_files (mkTempSuffix sampleDate) sampleDir 1 2 none
        (.dir [⟨"a.5.png".toList, true⟩, ⟨"readme.txt".toList, true⟩,
          ⟨"a.x.png".toList, true⟩])).trace, ev.src = origPath sampleDir t) ∧
    (∀ e ∈ ([⟨"a.5.png".toList, true⟩, ⟨"readme.txt".toList, true⟩,
        ⟨"a.x.png".toList, true⟩] : List Entry), entryMatched e = false →
      fullP sampleDir e.name ∈ namesOf (renumber_files (mkTempSuffix sampleDate) sampleDir
        1 2 none (.dir [⟨"a.5.png".toList, true⟩, ⟨"readme.txt".toList, true⟩,
          ⟨"a.x.png".toList, true⟩])).fs ∧
      (∀ ev ∈ (renumber_files (mkTempSuffix sampleDate) sampleDir 1 2 none
        (.dir [⟨"a.5.png".toList, true⟩, ⟨"readme.txt".toList, true⟩,
          ⟨"a.x.png".toList, true⟩])).trace, ev.src ≠ fullP sampleDir e.name) ∧
      (∀ t ∈ trisOfSeqs (renumber_files (mkTempSuffix sampleDate) sampleDir 1 2 none
        (.dir [⟨"a.5.png".toList, true⟩, ⟨"readme.txt".toList, true⟩,
          ⟨"a.x.png".toList, true⟩])).seqs, origName t ≠ e.name))) :=
  ⟨⟨by decide, by decide, by decide, by decide⟩,
    claim5_match_criterion sampleDir sampleDate 1 2 none
      [⟨"a.5.png".toList, true⟩, ⟨"readme.txt".toList, true⟩, ⟨"a.x.png".toList, true⟩]
      (by decide) (by decide) (by decide) (by decide)⟩

end FullRun

end RenumberSeq
